import Mathlib

/-!
Verification of the poker hand evaluator (`hand.go`, package `joker`).

The evaluator's data model and operations are embedded shallowly: Go slices
become `List`, `*Card` becomes `Card` (the code never distinguishes pointer
identity, only `(rank, suit)` values), machine `int` becomes `Int`, and the
`panic` in `handForFiveCards` becomes an `Option` whose `none` case marks the
panic path.  The `Card`/`Rank`/`Suit` collaborator, `combinations`, and the
rank display names live in repository files outside the evaluated source and
are modelled from the specification, as marked on each such definition.
-/

set_option maxHeartbeats 1600000

namespace Joker

/-- Modelled from the spec: Go `type Rank string` from the Card/Rank collaborator
(card.go, outside the evaluated source).  Blank sentinel ranks contain `?`. -/
abbrev Rank := String

/-- Modelled from the spec: Go `type Suit string` from the Card/Rank collaborator. -/
abbrev Suit := String

/-- Modelled from the spec: the thirteen rank constants of the collaborator. -/
def Ace : Rank := "A"

def King : Rank := "K"

def Queen : Rank := "Q"

def Jack : Rank := "J"

def Ten : Rank := "T"

def Nine : Rank := "9"

def Eight : Rank := "8"

def Seven : Rank := "7"

def Six : Rank := "6"

def Five : Rank := "5"

def Four : Rank := "4"

def Three : Rank := "3"

def Two : Rank := "2"

/-- Modelled from the spec: the four suit constants of the collaborator. -/
def Spades : Suit := "♠"

def Hearts : Suit := "♥"

def Diamonds : Suit := "♦"

def Clubs : Suit := "♣"

/-- Modelled from the spec: a card is an immutable `(rank, suit)` pair with
equality by `(rank, suit)`. -/
structure Card where
  rank : Rank
  suit : Suit
  deriving DecidableEq, Repr

/-- Modelled from the spec: the thirteen ranks of the collaborator (`allRanks`). -/
def allRanks : List Rank :=
  [Ace, King, Queen, Jack, Ten, Nine, Eight, Seven, Six, Five, Four, Three, Two]

def allSuits : List Suit := [Spades, Hearts, Diamonds, Clubs]

/-- Modelled from the spec: the active total ordering over ranks, ascending.
Ace-high is `A > K > … > 2`; ace-low is `K > … > 2 > A` (ace below two). -/
def ascRanks (aceLow : Bool) : List Rank :=
  if aceLow then
    [Ace, Two, Three, Four, Five, Six, Seven, Eight, Nine, Ten, Jack, Queen, King]
  else
    [Two, Three, Four, Five, Six, Seven, Eight, Nine, Ten, Jack, Queen, King, Ace]

/-- Modelled from the spec: `Rank.IndexOf` — the index of a rank in the currently
active ordering, increasing with strength; `-1` for a rank outside the ordering
(such as a blank sentinel). -/
def IndexOf (aceLow : Bool) (r : Rank) : Int :=
  match (ascRanks aceLow).indexOf? r with
  | some i => (i : Int)
  | none => -1

/-- A real (non-sentinel) card: its rank and suit come from the collaborator. -/
def validCard (c : Card) : Prop := c.rank ∈ allRanks ∧ c.suit ∈ allSuits

instance : DecidablePred validCard := fun _ => by unfold validCard; infer_instance

/-- Modelled from the spec: singular display names of ranks ("five", …);
empty for a rank outside the collaborator's table. -/
def singularName (r : Rank) : String :=
  match r with
  | "A" => "ace" | "K" => "king" | "Q" => "queen" | "J" => "jack" | "T" => "ten"
  | "9" => "nine" | "8" => "eight" | "7" => "seven" | "6" => "six" | "5" => "five"
  | "4" => "four" | "3" => "three" | "2" => "two" | _ => ""

/-- Modelled from the spec: plural display names of ranks ("aces", "sixes", …). -/
def pluralName (r : Rank) : String :=
  match r with
  | "A" => "aces" | "K" => "kings" | "Q" => "queens" | "J" => "jacks" | "T" => "tens"
  | "9" => "nines" | "8" => "eights" | "7" => "sevens" | "6" => "sixes" | "5" => "fives"
  | "4" => "fours" | "3" => "threes" | "2" => "twos" | _ => ""

/-- Go `type Ranking int` and its ten constants, in declaration order
(`HighCard = 0` up to `RoyalFlush = 9`). -/
inductive Ranking where
  | HighCard | Pair | TwoPair | ThreeOfAKind | Straight
  | Flush | FullHouse | FourOfAKind | StraightFlush | RoyalFlush
  deriving DecidableEq, Repr, Fintype

/-- The numeric value of a `Ranking` (its Go `iota` constant). -/
def Ranking.idx : Ranking → Int
  | .HighCard => 0 | .Pair => 1 | .TwoPair => 2 | .ThreeOfAKind => 3 | .Straight => 4
  | .Flush => 5 | .FullHouse => 6 | .FourOfAKind => 7 | .StraightFlush => 8
  | .RoyalFlush => 9

/-- Go `type HandSorting int` with constants `High = 0`, `Low = 1`. -/
inductive HandSorting where
  | High | Low
  deriving DecidableEq, Repr

/-- Go `type Options struct` — configuration for `NewHandWithOptions`. -/
structure Options where
  Sorting : HandSorting := .High
  IgnoreStraights : Bool := false
  IgnoreFlushes : Bool := false
  AceIsLow : Bool := false
  deriving DecidableEq, Repr

/-- Go `type Hand struct` — a ranking, the five canonical cards, a description. -/
structure Hand where
  ranking : Ranking
  cards : List Card
  description : String
  deriving DecidableEq, Repr

/-- Placeholder card used to translate Go's (panicking) out-of-bounds indexing;
all indexing in the source happens on length-5 slices. -/
def noCard : Card := ⟨"", ""⟩

/-- Go `cardsForRank` — all cards of the given rank, in order. -/
def cardsForRank (cards : List Card) (r : Rank) : List Card :=
  cards.filter (fun c => decide (c.rank = r))

/-- Go's `strings.Contains(s, "?")`: the rank's character list contains `?`. -/
def isBlankRank (r : Rank) : Bool := r.data.any (fun ch => ch == '?')

/-- Go `hasBlankCards` — some card's rank contains the `?` marker. -/
def hasBlankCards (cards : List Card) : Bool :=
  cards.any (fun c => isBlankRank c.rank)

/-- The loop body of `hasStraight`: adjacent rank indexes descend by exactly 1. -/
def descRun : List Int → Bool
  | [] => true
  | [_] => true
  | a :: b :: rest => (a == b + 1) && descRun (b :: rest)

/-- Go `hasLowStraight` — the canonical wheel pattern `[Five, Four, Three, Two, Ace]`. -/
def hasLowStraight (cards : List Card) : Bool :=
  match cards with
  | c0 :: c1 :: c2 :: c3 :: c4 :: _ =>
    decide (c0.rank = Five) && decide (c1.rank = Four) && decide (c2.rank = Three) &&
      decide (c3.rank = Two) && decide (c4.rank = Ace)
  | _ => false

/-- Go `hasStraight` — no blank card, and either consecutive descending rank
indexes or the wheel pattern.  The active ace ordering (a package-level
configuration in the Go source's collaborator) is passed explicitly. -/
def hasStraight (aceLow : Bool) (cards : List Card) : Bool :=
  if hasBlankCards cards then false
  else descRun (cards.map (fun c => IndexOf aceLow c.rank)) || hasLowStraight cards

/-- Go `hasFlush` — no blank card, and all cards share the first card's suit. -/
def hasFlush (cards : List Card) : Bool :=
  if hasBlankCards cards then false
  else cards.all (fun c => decide (c.suit = (cards.getD 0 noCard).suit))

/-- Go `hasPairs` — at every position `i < 5`, the number of cards sharing that
position's rank equals `pairNums[i]`. -/
def hasPairs (cards : List Card) (pairNums : List Nat) : Bool :=
  (List.range 5).all (fun i =>
    decide (pairNums.getD i 0 = (cardsForRank cards (cards.getD i noCard).rank).length))

/-- Go `formLowStraight` — if the formed sequence is `[Ace, Five, Four, Three, Two]`,
rotate the ace to the last position. -/
def formLowStraight (cards : List Card) : List Card :=
  match cards with
  | [c0, c1, c2, c3, c4] =>
    if c0.rank = Ace ∧ c1.rank = Five ∧ c2.rank = Four ∧ c3.rank = Three ∧ c4.rank = Two
    then [c1, c2, c3, c4, c0]
    else [c0, c1, c2, c3, c4]
  | other => other

/-- The blank padding card `{rank: "?i", suit: "?i"}` built in `formCards`. -/
def blankCard (i : Nat) : Card := ⟨"?" ++ toString i, "?" ++ toString i⟩

/-- The padding loop of `formCards`: blank cards `?1 … ?d`, in order. -/
def blankPad (d : Nat) : List Card := (List.range d).map (fun i => blankCard (i + 1))

/-- Generic insertion used to model Go's `sort.Sort` (ascending by `le`). -/
def insertLe {α : Type} (le : α → α → Bool) (x : α) : List α → List α
  | [] => [x]
  | y :: ys => if le x y then x :: y :: ys else y :: insertLe le x ys

/-- Models Go's `sort.Sort`: sorts ascending with respect to `le`. -/
def sortByLe {α : Type} (le : α → α → Bool) (l : List α) : List α :=
  l.foldr (insertLe le) []

/-- The ranks iterated by `formCards`: `allRanks()` sorted descending under the
active ordering (strongest first). -/
def descRanks (aceLow : Bool) : List Rank :=
  sortByLe (fun a b => decide (IndexOf aceLow b ≤ IndexOf aceLow a)) allRanks

/-- One iteration of the grouping loop in `formCards`: the cards of rank `r`,
kept only when that rank's multiplicity equals `i`. -/
def chunk (sorted : List Card) (i : Nat) (r : Rank) : List Card :=
  let rCards := cardsForRank sorted r
  if rCards.length = i then rCards else []

/-- The grouping loop of `formCards`: for `i = 4, 3, 2, 1`, append every rank
group of multiplicity `i`, ranks scanned strongest first. -/
def groupLoop (sorted : List Card) (ranks : List Rank) : List Card :=
  (([4, 3, 2, 1] : List Nat).map (fun i => (ranks.map (fun r => chunk sorted i r)).flatten)).flatten

/-- Go `formCards` — sort by rank descending under the active ordering, group by
multiplicity then rank, pad with blank cards to length 5, apply the wheel
fix-up. -/
def formCards (cards : List Card) (opts : Options) : List Card :=
  let sorted := sortByLe
    (fun a b => decide (IndexOf opts.AceIsLow b.rank ≤ IndexOf opts.AceIsLow a.rank)) cards
  let formed := groupLoop sorted (descRanks opts.AceIsLow)
  let dif := 5 - formed.length
  let padded := formed ++ blankPad dif
  formLowStraight padded

/-- The Go `ranking` struct: a `Ranking` with its validity and description
functions. -/
structure RankingEntry where
  r : Ranking
  vFunc : List Card → Options → Bool
  dFunc : List Card → String

/-- Go `highCard` — no pair signature; unless ignored, neither straight nor flush. -/
def highCard : RankingEntry where
  r := .HighCard
  vFunc := fun cards opts =>
    let flush := hasFlush cards
    let straight := hasStraight opts.AceIsLow cards
    let pairs := hasPairs cards [1, 1, 1, 1, 1]
    let pairs := if !opts.IgnoreStraights then pairs && !straight else pairs
    let pairs := if !opts.IgnoreFlushes then pairs && !flush else pairs
    pairs
  dFunc := fun cards => "high card " ++ singularName (cards.getD 0 noCard).rank ++ " high"

/-- Go `pair` — signature `{2,2,1,1,1}`. -/
def pair : RankingEntry where
  r := .Pair
  vFunc := fun cards _ => hasPairs cards [2, 2, 1, 1, 1]
  dFunc := fun cards => "pair of " ++ pluralName (cards.getD 0 noCard).rank

/-- Go `twoPair` — signature `{2,2,2,2,1}`. -/
def twoPair : RankingEntry where
  r := .TwoPair
  vFunc := fun cards _ => hasPairs cards [2, 2, 2, 2, 1]
  dFunc := fun cards =>
    "two pair " ++ pluralName (cards.getD 0 noCard).rank ++ " and " ++
      pluralName (cards.getD 2 noCard).rank

/-- Go `threeOfAKind` — signature `{3,3,3,1,1}`. -/
def threeOfAKind : RankingEntry where
  r := .ThreeOfAKind
  vFunc := fun cards _ => hasPairs cards [3, 3, 3, 1, 1]
  dFunc := fun cards => "three of a kind " ++ pluralName (cards.getD 0 noCard).rank

/-- Go `straight` — a straight that is not a flush; disabled by `IgnoreStraights`. -/
def straight : RankingEntry where
  r := .Straight
  vFunc := fun cards opts =>
    if opts.IgnoreStraights then false
    else
      let flush := hasFlush cards
      let straight := hasStraight opts.AceIsLow cards
      !flush && straight
  dFunc := fun cards => "straight " ++ singularName (cards.getD 0 noCard).rank ++ " high"

/-- Go `flush` — a flush that is not a straight; disabled by `IgnoreFlushes`. -/
def flush : RankingEntry where
  r := .Flush
  vFunc := fun cards opts =>
    if opts.IgnoreFlushes then false
    else
      let flush := hasFlush cards
      let straight := hasStraight opts.AceIsLow cards
      flush && !straight
  dFunc := fun cards => "flush " ++ singularName (cards.getD 0 noCard).rank ++ " high"

/-- Go `fullHouse` — signature `{3,3,3,2,2}`. -/
def fullHouse : RankingEntry where
  r := .FullHouse
  vFunc := fun cards _ => hasPairs cards [3, 3, 3, 2, 2]
  dFunc := fun cards =>
    "full house " ++ pluralName (cards.getD 0 noCard).rank ++ " full of " ++
      pluralName (cards.getD 3 noCard).rank

/-- Go `fourOfAKind` — signature `{4,4,4,4,1}`. -/
def fourOfAKind : RankingEntry where
  r := .FourOfAKind
  vFunc := fun cards _ => hasPairs cards [4, 4, 4, 4, 1]
  dFunc := fun cards => "four of a kind " ++ pluralName (cards.getD 0 noCard).rank

/-- Go `straightFlush` — straight and flush, top card not an ace; disabled by
either ignore flag. -/
def straightFlush : RankingEntry where
  r := .StraightFlush
  vFunc := fun cards opts =>
    if opts.IgnoreStraights || opts.IgnoreFlushes then false
    else
      let flush := hasFlush cards
      let straight := hasStraight opts.AceIsLow cards
      decide ((cards.getD 0 noCard).rank ≠ Ace) && flush && straight
  dFunc := fun cards => "straight flush " ++ singularName (cards.getD 0 noCard).rank ++ " high"

/-- Go `royalFlush` — straight and flush with an ace on top; disabled by either
ignore flag. -/
def royalFlush : RankingEntry where
  r := .RoyalFlush
  vFunc := fun cards opts =>
    if opts.IgnoreStraights || opts.IgnoreFlushes then false
    else
      let flush := hasFlush cards
      let straight := hasStraight opts.AceIsLow cards
      decide ((cards.getD 0 noCard).rank = Ace) && flush && straight
  dFunc := fun _ => "royal flush"

/-- Go `rankings` — the fixed classifier list, weakest to strongest. -/
def rankings : List RankingEntry :=
  [highCard, pair, twoPair, threeOfAKind, straight, flush, fullHouse, fourOfAKind,
    straightFlush, royalFlush]

/-- Go `handForFiveCards` — canonicalize, then return the first matching classifier.
The Go `panic("should never get here")` on classifier exhaustion is `none`. -/
def handForFiveCards (cards : List Card) (opts : Options) : Option Hand :=
  let cards := formCards cards opts
  match rankings.find? (fun rk => rk.vFunc cards opts) with
  | some rk => some { ranking := rk.r, cards := cards, description := rk.dFunc cards }
  | none => none

/-- Modelled from the spec: `combinations n k` (combinations.go, outside the
evaluated source) — every strictly increasing `k`-element index list drawn from
`0 … n-1`, in lexicographic order.  `start` is the least index still allowed. -/
def combosFrom (n : Nat) : Nat → Nat → List (List Nat)
  | _, 0 => [[]]
  | start, k + 1 =>
    ((List.range' start (n - start)).map
      (fun i => (combosFrom n (i + 1) k).map (fun c => i :: c))).flatten

/-- Modelled from the spec: `combinations(n, k)`. -/
def combinations (n k : Nat) : List (List Nat) := combosFrom n 0 k

/-- Go `cardCombos` — index combinations of size `min(len, 5)` mapped back to cards. -/
def cardCombos (cards : List Card) : List (List Card) :=
  let l := if cards.length < 5 then cards.length else 5
  (combinations cards.length l).map (fun combo => combo.map (fun i => cards.getD i noCard))

/-- The candidate-building loop of `NewHandWithOptions`; `none` if any
combination would hit the classifier-exhaustion panic. -/
def handsForCombos (combos : List (List Card)) (opts : Options) : Option (List Hand) :=
  match combos with
  | [] => some []
  | c :: rest =>
    match handForFiveCards c opts, handsForCombos rest opts with
    | some h, some hs => some (h :: hs)
    | _, _ => none

/-- The loop of `Hand.CompareTo`: first differing entry decides, by difference. -/
def firstDiff : List Int → List Int → Int
  | a :: as, b :: bs => if a ≠ b then a - b else firstDiff as bs
  | _, _ => 0

/-- Go `Hand.CompareTo` — ranking difference, else positional rank-index comparison
over the five canonical cards under the currently active ace ordering. -/
def compareTo (aceLow : Bool) (h o : Hand) : Int :=
  if h.ranking ≠ o.ranking then h.ranking.idx - o.ranking.idx
  else
    firstDiff (h.cards.map (fun c => IndexOf aceLow c.rank))
      (o.cards.map (fun c => IndexOf aceLow c.rank))

/-- Go `NewHandWithOptions` — classify every combination, sort ascending by the
comparator (`sort.Sort(ByHighHand(hands))`), return the last hand for `High`
sorting and the first for `Low`.  `none` models a panic (classifier exhaustion
in some combination, or indexing an empty candidate list). -/
def NewHandWithOptions (cards : List Card) (opts : Options) : Option Hand :=
  let combos := cardCombos cards
  match handsForCombos combos opts with
  | none => none
  | some hands =>
    let sorted := sortByLe (fun a b => decide (compareTo opts.AceIsLow a b ≤ 0)) hands
    match opts.Sorting with
    | .Low => sorted.head?
    | .High => sorted.getLast?

/-- Go `NewHand` — `NewHandWithOptions` with default options. -/
def NewHand (cards : List Card) : Option Hand := NewHandWithOptions cards {}

/-- Go `Hand.UnmarshalJSON`.  Go's `json.Unmarshal` into the local `handJSON`
wrapper is abstracted as the pre-decoded result `decoded` (the byte-level JSON
decoder belongs to the standard library, not this package).  The result pairs
the returned error value with the receiver's value after the call: the Go code
assigns the rebuilt hand to its local copy of the receiver pointer (`h =
NewHand(m.Cards)`), so the receiver is never written through. -/
def UnmarshalJSON (h : Hand) (decoded : Except String (List Card)) :
    Except String Unit × Hand :=
  match decoded with
  | .error e => (.error e, h)
  | .ok cs =>
    let _hNew := NewHand cs
    (.ok (), h)

/-- A concrete pair hand, used in closed instances of the comparator theorems. -/
def wHandPair : Hand :=
  ⟨Ranking.Pair,
    [⟨Ace, Spades⟩, ⟨Ace, Clubs⟩, ⟨King, Diamonds⟩, ⟨Queen, Hearts⟩, ⟨Jack, Spades⟩],
    "pair of aces"⟩

/-- A concrete ace-high hand, used in closed instances of the comparator theorems. -/
def wHandHigh : Hand :=
  ⟨Ranking.HighCard,
    [⟨Ace, Spades⟩, ⟨King, Spades⟩, ⟨Queen, Spades⟩, ⟨Jack, Spades⟩, ⟨Nine, Hearts⟩],
    "high card ace high"⟩

/-- A concrete flush hand, used in closed instances of the comparator theorems. -/
def wHandFlush : Hand :=
  ⟨Ranking.Flush,
    [⟨Ten, Spades⟩, ⟨Eight, Spades⟩, ⟨Six, Spades⟩, ⟨Four, Spades⟩, ⟨Two, Spades⟩],
    "flush ten high"⟩

/-- A concrete king-high hand, used in closed instances of the comparator theorems. -/
def wHandKing : Hand :=
  ⟨Ranking.HighCard,
    [⟨King, Spades⟩, ⟨Queen, Hearts⟩, ⟨Nine, Diamonds⟩, ⟨Seven, Clubs⟩, ⟨Five, Spades⟩],
    "high card king high"⟩

/-- The concrete five-card input used in the closed instance of the selector
theorem. -/
def wCards : List Card :=
  [⟨Ace, Spades⟩, ⟨King, Spades⟩, ⟨Queen, Spades⟩, ⟨Jack, Spades⟩, ⟨Nine, Hearts⟩]

/-- A concrete two-card input used in closed instances of the padding theorems. -/
def wPairCards : List Card := [⟨Ace, Spades⟩, ⟨Ace, Clubs⟩]

/-- The hand the evaluator builds from `wPairCards`. -/
def wPairBest : Hand :=
  ⟨Ranking.Pair,
    [⟨Ace, Spades⟩, ⟨Ace, Clubs⟩, blankCard 1, blankCard 2, blankCard 3],
    "pair of aces"⟩

/-- Specification-side subset enumerator used to state combination
completeness: all `k`-element sublists, in order. -/
def choose {α : Type} : Nat → List α → List (List α)
  | 0, _ => [[]]
  | _ + 1, [] => []
  | k + 1, c :: rest => ((choose k rest).map (fun l => c :: l)) ++ choose (k + 1) rest

/-- Specification-side (§4.6): the rank index of the `i`-th canonical card. -/
def rankIdxAt (aceLow : Bool) (h : Hand) (i : Nat) : Int :=
  IndexOf aceLow ((h.cards.getD i noCard).rank)

/-- Specification-side (§4.6): hand `a` is stronger than hand `b` — larger
ranking category, or equal categories and the first differing canonical
position carries a larger rank index. -/
def StrongerSpec (aceLow : Bool) (a b : Hand) : Prop :=
  b.ranking.idx < a.ranking.idx ∨
    (a.ranking = b.ranking ∧
      ∃ i, i < 5 ∧ (∀ j, j < i → rankIdxAt aceLow a j = rankIdxAt aceLow b j) ∧
        rankIdxAt aceLow b i < rankIdxAt aceLow a i)

/-- The rank-index list of a hand, as consumed by the comparison loop. -/
def idxList (aceLow : Bool) (h : Hand) : List Int :=
  h.cards.map (fun c => IndexOf aceLow c.rank)

/-- Specification-side (§4.2): canonical-order key comparison relative to the
multiset `l` — card `a` precedes card `b` when `a`'s rank group is strictly
larger, or the groups are equal-sized and `a`'s rank index is at least `b`'s
(cards of one rank share their key). -/
def canonKeyGE (aceLow : Bool) (l : List Card) (a b : Card) : Prop :=
  (cardsForRank l b.rank).length < (cardsForRank l a.rank).length ∨
    ((cardsForRank l a.rank).length = (cardsForRank l b.rank).length ∧
      IndexOf aceLow b.rank ≤ IndexOf aceLow a.rank)

/-- The `(multiplicity, rank)` pairs scanned by the grouping loop of
`formCards`, in scan order. -/
def sizeRankPairs (ranks : List Rank) : List (Nat × Rank) :=
  (([4, 3, 2, 1] : List Nat).map (fun i => ranks.map (fun r => (i, r)))).flatten

/-- The grouped real-card part built by `formCards` before padding: the
grouping loop applied to the rank-sorted cards. -/
def realPart (cards : List Card) (opts : Options) : List Card :=
  groupLoop
    (sortByLe (fun a b => decide (IndexOf opts.AceIsLow b.rank ≤ IndexOf opts.AceIsLow a.rank))
      cards)
    (descRanks opts.AceIsLow)


/-! ### Lemmas about the positional comparison loop -/

theorem firstDiff_cons_eq (a : Int) (as bs : List Int) :
    firstDiff (a :: as) (a :: bs) = firstDiff as bs := by
  simp [firstDiff]

theorem firstDiff_cons_ne {a b : Int} (h : a ≠ b) (as bs : List Int) :
    firstDiff (a :: as) (b :: bs) = a - b := by
  simp [firstDiff, h]

theorem firstDiff_neg (xs ys : List Int) : firstDiff xs ys = -firstDiff ys xs := by
  induction xs generalizing ys with
  | nil => cases ys <;> simp [firstDiff]
  | cons a as ih =>
    cases ys with
    | nil => simp [firstDiff]
    | cons b bs =>
      by_cases h : a = b
      · subst h
        rw [firstDiff_cons_eq, firstDiff_cons_eq, ih bs]
      · rw [firstDiff_cons_ne h, firstDiff_cons_ne (Ne.symm h)]
        omega

theorem firstDiff_eq_zero_iff (xs ys : List Int) (hlen : xs.length = ys.length) :
    firstDiff xs ys = 0 ↔ ∀ i, i < xs.length → xs.getD i 0 = ys.getD i 0 := by
  induction xs generalizing ys with
  | nil => simp [firstDiff]
  | cons a as ih =>
    cases ys with
    | nil => simp at hlen
    | cons b bs =>
      simp only [List.length_cons, Nat.add_right_cancel_iff] at hlen
      by_cases h : a = b
      · subst h
        rw [firstDiff_cons_eq, ih bs hlen]
        constructor
        · intro hall i hi
          cases i with
          | zero => simp
          | succ j => simpa using hall j (by simpa using hi)
        · intro hall j hj
          simpa using hall (j + 1) (by simpa using hj)
      · rw [firstDiff_cons_ne h]
        constructor
        · intro hz
          exact absurd (by omega : a = b) h
        · intro hall
          exact absurd (by simpa using hall 0 (by simp) : a = b) h

theorem firstDiff_pos_iff (xs ys : List Int) (hlen : xs.length = ys.length) :
    0 < firstDiff xs ys ↔
      ∃ i, i < xs.length ∧ (∀ j, j < i → xs.getD j 0 = ys.getD j 0) ∧
        ys.getD i 0 < xs.getD i 0 := by
  induction xs generalizing ys with
  | nil => simp [firstDiff]
  | cons a as ih =>
    cases ys with
    | nil => simp at hlen
    | cons b bs =>
      simp only [List.length_cons, Nat.add_right_cancel_iff] at hlen
      by_cases h : a = b
      · subst h
        rw [firstDiff_cons_eq, ih bs hlen]
        constructor
        · rintro ⟨i, hi, hpre, hlt⟩
          refine ⟨i + 1, by simpa using hi, ?_, by simpa using hlt⟩
          intro j hj
          cases j with
          | zero => simp
          | succ j' => simpa using hpre j' (by omega)
        · rintro ⟨i, hi, hpre, hlt⟩
          cases i with
          | zero => simp at hlt
          | succ i' =>
            refine ⟨i', by simpa using hi, ?_, by simpa using hlt⟩
            intro j hj
            simpa using hpre (j + 1) (by omega)
      · rw [firstDiff_cons_ne h]
        constructor
        · intro hpos
          refine ⟨0, by simp, ?_, by simp; omega⟩
          intro j hj
          omega
        · rintro ⟨i, hi, hpre, hlt⟩
          cases i with
          | zero =>
            simp only [List.getD_cons_zero] at hlt
            omega
          | succ i' => exact absurd (by simpa using hpre 0 (by omega) : a = b) h

theorem firstDiff_trans_pos (xs ys zs : List Int) (h1 : xs.length = ys.length)
    (h2 : ys.length = zs.length) :
    0 < firstDiff xs ys → 0 < firstDiff ys zs → 0 < firstDiff xs zs := by
  induction xs generalizing ys zs with
  | nil => cases ys <;> simp [firstDiff]
  | cons a as ih =>
    cases ys with
    | nil => simp at h1
    | cons b bs =>
      cases zs with
      | nil => simp at h2
      | cons c cs =>
        simp only [List.length_cons, Nat.add_right_cancel_iff] at h1 h2
        by_cases hab : a = b <;> by_cases hbc : b = c
        · subst hab; subst hbc
          rw [firstDiff_cons_eq, firstDiff_cons_eq, firstDiff_cons_eq]
          exact ih bs cs h1 h2
        · subst hab
          rw [firstDiff_cons_eq, firstDiff_cons_ne hbc, firstDiff_cons_ne hbc]
          exact fun _ h => h
        · subst hbc
          rw [firstDiff_cons_ne hab, firstDiff_cons_eq, firstDiff_cons_ne hab]
          exact fun h _ => h
        · by_cases hac : a = c
          · subst hac
            rw [firstDiff_cons_ne hab, firstDiff_cons_ne hbc, firstDiff_cons_eq]
            omega
          · rw [firstDiff_cons_ne hab, firstDiff_cons_ne hbc, firstDiff_cons_ne hac]
            omega

theorem firstDiff_trans_nonpos (xs ys zs : List Int) (h1 : xs.length = ys.length)
    (h2 : ys.length = zs.length) :
    firstDiff xs ys ≤ 0 → firstDiff ys zs ≤ 0 → firstDiff xs zs ≤ 0 := by
  induction xs generalizing ys zs with
  | nil => cases ys <;> cases zs <;> simp [firstDiff]
  | cons a as ih =>
    cases ys with
    | nil => simp at h1
    | cons b bs =>
      cases zs with
      | nil => simp at h2
      | cons c cs =>
        simp only [List.length_cons, Nat.add_right_cancel_iff] at h1 h2
        by_cases hab : a = b <;> by_cases hbc : b = c
        · subst hab; subst hbc
          rw [firstDiff_cons_eq, firstDiff_cons_eq, firstDiff_cons_eq]
          exact ih bs cs h1 h2
        · subst hab
          rw [firstDiff_cons_eq, firstDiff_cons_ne hbc, firstDiff_cons_ne hbc]
          exact fun _ h => h
        · subst hbc
          rw [firstDiff_cons_ne hab, firstDiff_cons_eq, firstDiff_cons_ne hab]
          exact fun h _ => h
        · by_cases hac : a = c
          · subst hac
            rw [firstDiff_cons_ne hab, firstDiff_cons_ne hbc, firstDiff_cons_eq]
            omega
          · rw [firstDiff_cons_ne hab, firstDiff_cons_ne hbc, firstDiff_cons_ne hac]
            omega

/-! ### Lemmas about `compareTo` -/

theorem Ranking.idx_injective : ∀ r s : Ranking, r.idx = s.idx → r = s := by decide

theorem compareTo_neg (al : Bool) (a b : Hand) :
    compareTo al a b = -(compareTo al b a) := by
  unfold compareTo
  by_cases h : a.ranking = b.ranking
  · rw [if_neg (by simpa using h), if_neg (by simpa using h.symm), firstDiff_neg]
  · rw [if_pos h, if_pos (Ne.symm h)]
    omega

theorem idxList_length (al : Bool) (h : Hand) : (idxList al h).length = h.cards.length := by
  simp [idxList]

theorem getD_map_int (f : Card → Int) (l : List Card) (i : Nat) (hi : i < l.length) :
    (l.map f).getD i 0 = f (l.getD i noCard) := by
  induction l generalizing i with
  | nil => simp at hi
  | cons c cs ih =>
    cases i with
    | zero => simp
    | succ j => simpa using ih j (by simpa using hi)

theorem idxList_getD (al : Bool) (h : Hand) (i : Nat) (hi : i < h.cards.length) :
    (idxList al h).getD i 0 = rankIdxAt al h i :=
  getD_map_int _ _ _ hi

theorem compareTo_eq_of_ne (al : Bool) (a b : Hand) (h : a.ranking ≠ b.ranking) :
    compareTo al a b = a.ranking.idx - b.ranking.idx := by
  unfold compareTo
  rw [if_pos h]

theorem compareTo_eq_of_eq (al : Bool) (a b : Hand) (h : a.ranking = b.ranking) :
    compareTo al a b = firstDiff (idxList al a) (idxList al b) := by
  unfold compareTo idxList
  rw [if_neg (by simpa using h)]

theorem compareTo_trans_pos (al : Bool) (a b c : Hand) (ha : a.cards.length = 5)
    (hb : b.cards.length = 5) (hc : c.cards.length = 5) :
    0 < compareTo al a b → 0 < compareTo al b c → 0 < compareTo al a c := by
  intro hab hbc
  by_cases eab : a.ranking = b.ranking <;> by_cases ebc : b.ranking = c.ranking
  · rw [compareTo_eq_of_eq al a b eab] at hab
    rw [compareTo_eq_of_eq al b c ebc] at hbc
    rw [compareTo_eq_of_eq al a c (eab.trans ebc)]
    exact firstDiff_trans_pos _ _ _ (by simp [idxList_length, ha, hb])
      (by simp [idxList_length, hb, hc]) hab hbc
  · rw [compareTo_eq_of_ne al b c ebc] at hbc
    have hne : a.ranking ≠ c.ranking := fun h => ebc (eab.symm.trans h)
    rw [compareTo_eq_of_ne al a c hne, eab]
    omega
  · rw [compareTo_eq_of_ne al a b eab] at hab
    have hne : a.ranking ≠ c.ranking := fun h => eab (h.trans ebc.symm)
    rw [compareTo_eq_of_ne al a c hne, ← ebc]
    omega
  · rw [compareTo_eq_of_ne al a b eab] at hab
    rw [compareTo_eq_of_ne al b c ebc] at hbc
    have hne : a.ranking ≠ c.ranking := fun h => by rw [h] at hab; omega
    rw [compareTo_eq_of_ne al a c hne]
    omega

theorem compareTo_trans_nonpos (al : Bool) (a b c : Hand) (ha : a.cards.length = 5)
    (hb : b.cards.length = 5) (hc : c.cards.length = 5) :
    compareTo al a b ≤ 0 → compareTo al b c ≤ 0 → compareTo al a c ≤ 0 := by
  intro hab hbc
  by_cases eab : a.ranking = b.ranking <;> by_cases ebc : b.ranking = c.ranking
  · rw [compareTo_eq_of_eq al a b eab] at hab
    rw [compareTo_eq_of_eq al b c ebc] at hbc
    rw [compareTo_eq_of_eq al a c (eab.trans ebc)]
    exact firstDiff_trans_nonpos _ _ _ (by simp [idxList_length, ha, hb])
      (by simp [idxList_length, hb, hc]) hab hbc
  · rw [compareTo_eq_of_ne al b c ebc] at hbc
    have hne : a.ranking ≠ c.ranking := fun h => ebc (eab.symm.trans h)
    rw [compareTo_eq_of_ne al a c hne, eab]
    omega
  · rw [compareTo_eq_of_ne al a b eab] at hab
    have hne : a.ranking ≠ c.ranking := fun h => eab (h.trans ebc.symm)
    rw [compareTo_eq_of_ne al a c hne, ← ebc]
    omega
  · rw [compareTo_eq_of_ne al a b eab] at hab
    rw [compareTo_eq_of_ne al b c ebc] at hbc
    have hne : a.ranking ≠ c.ranking := fun h => by
      rw [h] at hab
      exact ebc (Ranking.idx_injective _ _ (by omega))
    rw [compareTo_eq_of_ne al a c hne]
    omega

theorem compareTo_pos_iff (al : Bool) (a b : Hand) (ha : a.cards.length = 5)
    (hb : b.cards.length = 5) : 0 < compareTo al a b ↔ StrongerSpec al a b := by
  unfold StrongerSpec
  by_cases h : a.ranking = b.ranking
  · rw [compareTo_eq_of_eq al a b h,
      firstDiff_pos_iff _ _ (by simp [idxList_length, ha, hb]), idxList_length, ha]
    constructor
    · rintro ⟨i, hi, hpre, hlt⟩
      refine Or.inr ⟨h, i, hi, ?_, ?_⟩
      · intro j hj
        have := hpre j hj
        rwa [idxList_getD al a j (by omega), idxList_getD al b j (by omega)] at this
      · rwa [idxList_getD al a i (by omega), idxList_getD al b i (by omega)] at hlt
    · rintro (hidx | ⟨-, i, hi, hpre, hlt⟩)
      · exact absurd (congrArg Ranking.idx h) (by omega)
      · refine ⟨i, hi, ?_, ?_⟩
        · intro j hj
          rw [idxList_getD al a j (by omega), idxList_getD al b j (by omega)]
          exact hpre j hj
        · rw [idxList_getD al a i (by omega), idxList_getD al b i (by omega)]
          exact hlt
  · rw [compareTo_eq_of_ne al a b h]
    constructor
    · intro hpos
      exact Or.inl (by omega)
    · rintro (hidx | ⟨heq, -⟩)
      · omega
      · exact absurd heq h

theorem compareTo_zero_iff (al : Bool) (a b : Hand) (ha : a.cards.length = 5)
    (hb : b.cards.length = 5) :
    compareTo al a b = 0 ↔
      a.ranking = b.ranking ∧ ∀ i, i < 5 → rankIdxAt al a i = rankIdxAt al b i := by
  by_cases h : a.ranking = b.ranking
  · rw [compareTo_eq_of_eq al a b h,
      firstDiff_eq_zero_iff _ _ (by simp [idxList_length, ha, hb]), idxList_length, ha]
    constructor
    · intro hall
      refine ⟨h, fun i hi => ?_⟩
      have := hall i hi
      rwa [idxList_getD al a i (by omega), idxList_getD al b i (by omega)] at this
    · rintro ⟨-, hall⟩
      intro i hi
      rw [idxList_getD al a i (by omega), idxList_getD al b i (by omega)]
      exact hall i hi
  · rw [compareTo_eq_of_ne al a b h]
    constructor
    · intro hz
      exact absurd (Ranking.idx_injective _ _ (by omega)) h
    · rintro ⟨heq, -⟩
      exact absurd heq h

/-! ### The sorting model: permutation and sortedness -/

theorem insertLe_perm {α : Type} (le : α → α → Bool) (x : α) (l : List α) :
    List.Perm (insertLe le x l) (x :: l) := by
  induction l with
  | nil => exact List.Perm.refl _
  | cons y ys ih =>
    by_cases h : le x y
    · rw [insertLe, if_pos h]
    · rw [insertLe, if_neg h]
      exact (ih.cons y).trans (List.Perm.swap x y ys)

theorem sortByLe_perm {α : Type} (le : α → α → Bool) (l : List α) :
    List.Perm (sortByLe le l) l := by
  induction l with
  | nil => exact List.Perm.refl _
  | cons x xs ih => exact (insertLe_perm le x (sortByLe le xs)).trans (ih.cons x)

theorem insertLe_pairwise {α : Type} (le : α → α → Bool) (x : α) (l : List α)
    (hl : l.Pairwise (fun a b => le a b = true))
    (htot : ∀ b ∈ l, le x b = true ∨ le b x = true)
    (htrans : ∀ b ∈ l, ∀ c ∈ l, le b c = true → le x b = true → le x c = true) :
    (insertLe le x l).Pairwise (fun a b => le a b = true) := by
  induction l with
  | nil => simp [insertLe]
  | cons y ys ih =>
    rcases List.pairwise_cons.mp hl with ⟨hy, hys⟩
    by_cases h : le x y
    · rw [insertLe, if_pos h]
      refine List.pairwise_cons.mpr ⟨?_, hl⟩
      intro z hz
      rcases List.mem_cons.mp hz with rfl | hz'
      · exact h
      · exact htrans y (by simp) z (by simp [hz']) (hy z hz') h
    · rw [insertLe, if_neg h]
      refine List.pairwise_cons.mpr ⟨?_, ?_⟩
      · intro z hz
        rcases List.mem_cons.mp ((insertLe_perm le x ys).mem_iff.mp hz) with rfl | hz'
        · rcases htot y (by simp) with hxy | hyx
          · exact absurd hxy h
          · exact hyx
        · exact hy z hz'
      · exact ih hys (fun b hb => htot b (by simp [hb]))
          (fun b hb c hc => htrans b (by simp [hb]) c (by simp [hc]))

theorem sortByLe_pairwise {α : Type} (le : α → α → Bool) (l : List α)
    (htot : ∀ a ∈ l, ∀ b ∈ l, le a b = true ∨ le b a = true)
    (htrans : ∀ a ∈ l, ∀ b ∈ l, ∀ c ∈ l, le a b = true → le b c = true → le a c = true) :
    (sortByLe le l).Pairwise (fun a b => le a b = true) := by
  induction l with
  | nil => simp [sortByLe]
  | cons x xs ih =>
    have hmem : ∀ a, a ∈ sortByLe le xs → a ∈ xs := fun a ha =>
      (sortByLe_perm le xs).mem_iff.mp ha
    refine insertLe_pairwise le x (sortByLe le xs) ?_ ?_ ?_
    · exact ih (fun a ha b hb => htot a (by simp [ha]) b (by simp [hb]))
        (fun a ha b hb c hc => htrans a (by simp [ha]) b (by simp [hb]) c (by simp [hc]))
    · intro b hb
      exact htot x (by simp) b (by simp [hmem b hb])
    · intro b hb c hc hbc hxb
      exact htrans x (by simp) b (by simp [hmem b hb]) c (by simp [hmem c hc]) hxb hbc

theorem pairwise_getLast_max {α : Type} (le : α → α → Bool) :
    ∀ (l : List α) (m : α), l.Pairwise (fun a b => le a b = true) →
      l.getLast? = some m → ∀ x ∈ l, x = m ∨ le x m = true := by
  intro l
  induction l with
  | nil => intro m _ hm; simp at hm
  | cons a rest ih =>
    intro m hp hm x hx
    cases rest with
    | nil =>
      simp only [List.getLast?_singleton, Option.some.injEq] at hm
      rcases List.mem_singleton.mp hx with rfl
      exact Or.inl hm
    | cons b rest' =>
      rw [List.getLast?_cons_cons] at hm
      rcases List.pairwise_cons.mp hp with ⟨ha, hp'⟩
      rcases List.mem_cons.mp hx with rfl | hx'
      · exact Or.inr (ha m (List.mem_of_getLast?_eq_some hm))
      · exact ih m hp' hm x hx'

theorem pairwise_head_min {α : Type} (le : α → α → Bool) (l : List α) (m : α)
    (hp : l.Pairwise (fun a b => le a b = true)) (hm : l.head? = some m) :
    ∀ x ∈ l, x = m ∨ le m x = true := by
  cases l with
  | nil => simp at hm
  | cons a rest =>
    simp only [List.head?_cons, Option.some.injEq] at hm
    subst hm
    rcases List.pairwise_cons.mp hp with ⟨ha, -⟩
    intro x hx
    rcases List.mem_cons.mp hx with rfl | hx'
    · exact Or.inl rfl
    · exact Or.inr (ha x hx')

/-! ### The candidate-building loop -/

theorem handsForCombos_mem_rev (combos : List (List Card)) (opts : Options)
    (hands : List Hand) (h : handsForCombos combos opts = some hands) :
    ∀ hd ∈ hands, ∃ c ∈ combos, handForFiveCards c opts = some hd := by
  induction combos generalizing hands with
  | nil =>
    simp only [handsForCombos, Option.some.injEq] at h
    subst h
    simp
  | cons c rest ih =>
    rw [handsForCombos] at h
    cases e1 : handForFiveCards c opts with
    | none => rw [e1] at h; simp at h
    | some h1 =>
      rw [e1] at h
      cases e2 : handsForCombos rest opts with
      | none => rw [e2] at h; simp at h
      | some hs =>
        rw [e2] at h
        simp only [Option.some.injEq] at h
        subst h
        intro hd hmem
        rcases List.mem_cons.mp hmem with rfl | hmem'
        · exact ⟨c, by simp, e1⟩
        · rcases ih hs e2 hd hmem' with ⟨c', hc', he⟩
          exact ⟨c', by simp [hc'], he⟩

theorem handsForCombos_mem_fwd (combos : List (List Card)) (opts : Options)
    (hands : List Hand) (h : handsForCombos combos opts = some hands) :
    ∀ c ∈ combos, ∃ hd ∈ hands, handForFiveCards c opts = some hd := by
  induction combos generalizing hands with
  | nil => simp
  | cons c rest ih =>
    rw [handsForCombos] at h
    cases e1 : handForFiveCards c opts with
    | none => rw [e1] at h; simp at h
    | some h1 =>
      rw [e1] at h
      cases e2 : handsForCombos rest opts with
      | none => rw [e2] at h; simp at h
      | some hs =>
        rw [e2] at h
        simp only [Option.some.injEq] at h
        subst h
        intro c' hc'
        rcases List.mem_cons.mp hc' with rfl | hmem'
        · exact ⟨h1, by simp, e1⟩
        · rcases ih hs e2 c' hmem' with ⟨hd, hhd, he⟩
          exact ⟨hd, by simp [hhd], he⟩

/-! ### The combination enumerator -/

theorem choose_sublist_mem {α : Type} :
    ∀ (cards sub : List α) (k : Nat), sub.Sublist cards → sub.length = k →
      sub ∈ choose k cards := by
  intro cards
  induction cards with
  | nil =>
    intro sub k hsub hlen
    rcases List.sublist_nil.mp hsub with rfl
    simp only [List.length_nil] at hlen
    subst hlen
    simp [choose]
  | cons c rest ih =>
    intro sub k hsub hlen
    cases k with
    | zero =>
      rcases List.length_eq_zero.mp hlen with rfl
      simp [choose]
    | succ k' =>
      cases hsub with
      | cons _ h =>
        rw [choose]
        exact List.mem_append_right _ (ih sub (k' + 1) h hlen)
      | cons₂ _ h =>
        rw [choose]
        refine List.mem_append_left _ ?_
        refine List.mem_map.mpr ⟨_, ih _ k' h (by simpa using hlen), rfl⟩

theorem choose_mem_sublist {α : Type} :
    ∀ (cards : List α) (k : Nat) (sub : List α), sub ∈ choose k cards →
      sub.Sublist cards ∧ sub.length = k := by
  intro cards
  induction cards with
  | nil =>
    intro k sub hmem
    cases k with
    | zero =>
      simp only [choose, List.mem_singleton] at hmem
      subst hmem
      simp
    | succ k' => simp [choose] at hmem
  | cons c rest ih =>
    intro k sub hmem
    cases k with
    | zero =>
      simp only [choose, List.mem_singleton] at hmem
      subst hmem
      simp
    | succ k' =>
      rw [choose] at hmem
      rcases List.mem_append.mp hmem with hl | hr
      · rcases List.mem_map.mp hl with ⟨tail, htail, rfl⟩
        rcases ih k' tail htail with ⟨hsub, hlen⟩
        exact ⟨hsub.cons₂ c, by simpa using hlen⟩
      · rcases ih (k' + 1) sub hr with ⟨hsub, hlen⟩
        exact ⟨hsub.cons c, hlen⟩

theorem combosFrom_spec (cards : List Card) :
    ∀ (m k start : Nat), start + m = cards.length →
      (combosFrom cards.length start k).map
          (fun combo => combo.map (fun i => cards.getD i noCard)) =
        choose k (cards.drop start) := by
  intro m
  induction m with
  | zero =>
    intro k start hse
    have hdrop : cards.drop start = [] := by
      rw [List.drop_eq_nil_iff]
      omega
    cases k with
    | zero => simp [combosFrom, choose]
    | succ k' =>
      rw [combosFrom, hdrop, show cards.length - start = 0 by omega]
      simp [choose]
  | succ m' ih =>
    intro k start hse
    have hlt : start < cards.length := by omega
    cases k with
    | zero => simp [combosFrom, choose]
    | succ k' =>
      rw [combosFrom]
      rw [show cards.length - start = m' + 1 by omega, List.range'_succ]
      rw [List.map_cons, List.flatten_cons, List.map_append]
      have hrest : ((List.range' (start + 1) m').map
            (fun i => (combosFrom cards.length (i + 1) k').map (fun c => i :: c))).flatten =
          combosFrom cards.length (start + 1) (k' + 1) := by
        rw [combosFrom, show cards.length - (start + 1) = m' by omega]
      rw [hrest, ih (k' + 1) (start + 1) (by omega)]
      have hhead : ((combosFrom cards.length (start + 1) k').map
              (fun c => start :: c)).map
            (fun combo => combo.map (fun i => cards.getD i noCard)) =
          ((combosFrom cards.length (start + 1) k').map
              (fun combo => combo.map (fun i => cards.getD i noCard))).map
            (fun l => cards.getD start noCard :: l) := by
        rw [List.map_map, List.map_map]
        rfl
      rw [hhead, ih k' (start + 1) (by omega)]
      rw [List.drop_eq_getElem_cons hlt, choose]
      rw [List.getD_eq_getElem cards noCard hlt]

theorem cardCombos_eq_choose (cards : List Card) :
    cardCombos cards = choose (if cards.length < 5 then cards.length else 5) cards := by
  unfold cardCombos combinations
  have := combosFrom_spec cards cards.length
    (if cards.length < 5 then cards.length else 5) 0 (by omega)
  simpa using this

/-! ### Counting cards through the grouping loop -/

theorem count_cardsForRank (l : List Card) (r : Rank) (c : Card) :
    (cardsForRank l r).count c = if c.rank = r then l.count c else 0 := by
  induction l with
  | nil => simp [cardsForRank]
  | cons d ds ih =>
    unfold cardsForRank at *
    by_cases hd : d.rank = r
    · rw [List.filter_cons_of_pos (by simpa using hd)]
      by_cases hc : c.rank = r
      · simp [List.count_cons, ih, hc]
      · have hdc : (d == c) = false := by
          simp only [beq_eq_false_iff_ne]
          intro he
          exact hc (he ▸ hd)
        simp [List.count_cons, ih, hc, hdc]
    · rw [List.filter_cons_of_neg (by simpa using hd)]
      rw [ih]
      by_cases hc : c.rank = r
      · have hdc : (d == c) = false := by
          simp only [beq_eq_false_iff_ne]
          intro he
          exact hd (he ▸ hc)
        simp [List.count_cons, hc, hdc]
      · simp [hc]

theorem count_chunk (sorted : List Card) (i : Nat) (r : Rank) (c : Card) :
    (chunk sorted i r).count c =
      if c.rank = r ∧ (cardsForRank sorted c.rank).length = i then sorted.count c
      else 0 := by
  unfold chunk
  by_cases he : (cardsForRank sorted r).length = i
  · rw [if_pos he, count_cardsForRank]
    by_cases hc : c.rank = r
    · rw [if_pos hc, if_pos ⟨hc, by rw [hc]; exact he⟩]
    · rw [if_neg hc, if_neg (fun hcon => hc hcon.1)]
  · rw [if_neg he]
    have hcon : ¬(c.rank = r ∧ (cardsForRank sorted c.rank).length = i) := by
      rintro ⟨h1, h2⟩
      rw [h1] at h2
      exact he h2
    simp [hcon]

theorem count_rankScan (sorted : List Card) (i : Nat) (ranks : List Rank) (c : Card)
    (hnd : ranks.Nodup) :
    ((ranks.map (fun r => chunk sorted i r)).flatten).count c =
      if c.rank ∈ ranks ∧ (cardsForRank sorted c.rank).length = i then sorted.count c
      else 0 := by
  induction ranks with
  | nil => simp
  | cons r rs ih =>
    rcases List.nodup_cons.mp hnd with ⟨hr, hrs⟩
    rw [List.map_cons, List.flatten_cons, List.count_append, count_chunk, ih hrs]
    by_cases h2 : (cardsForRank sorted c.rank).length = i
    · by_cases h1 : c.rank = r
      · have h3 : c.rank ∉ rs := fun hm => hr (h1 ▸ hm)
        simp [h1, h2, h3]
        exact fun hm _ => absurd hm hr
      · by_cases h3 : c.rank ∈ rs
        · simp [h1, h2, h3]
        · simp [h1, h2, h3]
    · simp [h2]

theorem count_groupLoop (sorted : List Card) (ranks : List Rank) (c : Card)
    (hnd : ranks.Nodup) :
    (groupLoop sorted ranks).count c =
      if c.rank ∈ ranks ∧ 1 ≤ (cardsForRank sorted c.rank).length ∧
          (cardsForRank sorted c.rank).length ≤ 4
      then sorted.count c else 0 := by
  unfold groupLoop
  rw [List.map_cons, List.map_cons, List.map_cons, List.map_cons, List.map_nil,
    List.flatten_cons, List.flatten_cons, List.flatten_cons, List.flatten_cons,
    List.flatten_nil, List.count_append, List.count_append, List.count_append,
    List.count_append, List.count_nil,
    count_rankScan sorted 4 ranks c hnd, count_rankScan sorted 3 ranks c hnd,
    count_rankScan sorted 2 ranks c hnd, count_rankScan sorted 1 ranks c hnd]
  by_cases hm : c.rank ∈ ranks
  · by_cases h4 : (cardsForRank sorted c.rank).length = 4
    · simp [hm, h4]
    · by_cases h3 : (cardsForRank sorted c.rank).length = 3
      · simp [hm, h3, h4]
      · by_cases h2 : (cardsForRank sorted c.rank).length = 2
        · simp [hm, h2, h3, h4]
        · by_cases h1 : (cardsForRank sorted c.rank).length = 1
          · simp [hm, h1, h2, h3, h4]
          · have hno : ¬(1 ≤ (cardsForRank sorted c.rank).length ∧
                (cardsForRank sorted c.rank).length ≤ 4) := by omega
            simp [hm, h1, h2, h3, h4, hno]
  · simp [hm]

theorem mem_cardsForRank_self {c : Card} {l : List Card} (hc : c ∈ l) :
    c ∈ cardsForRank l c.rank := by
  unfold cardsForRank
  exact List.mem_filter.mpr ⟨hc, by simp⟩

theorem groupLoop_perm (sorted : List Card) (ranks : List Rank) (hnd : ranks.Nodup)
    (hmem : ∀ c ∈ sorted, c.rank ∈ ranks)
    (hle : ∀ c ∈ sorted, (cardsForRank sorted c.rank).length ≤ 4) :
    List.Perm (groupLoop sorted ranks) sorted := by
  rw [List.perm_iff_count]
  intro c
  rw [count_groupLoop sorted ranks c hnd]
  by_cases hc : c ∈ sorted
  · have h1 : 1 ≤ (cardsForRank sorted c.rank).length :=
      List.length_pos_of_mem (mem_cardsForRank_self hc)
    simp [hmem c hc, h1, hle c hc]
  · have h0 : sorted.count c = 0 := List.count_eq_zero.mpr hc
    simp [h0]

theorem cardsForRank_perm_length {l l' : List Card} (h : List.Perm l l') (r : Rank) :
    (cardsForRank l r).length = (cardsForRank l' r).length :=
  (h.filter _).length_eq

theorem formLowStraight_perm (l : List Card) : List.Perm (formLowStraight l) l := by
  rcases l with _ | ⟨c0, _ | ⟨c1, _ | ⟨c2, _ | ⟨c3, _ | ⟨c4, _ | ⟨c5, rest⟩⟩⟩⟩⟩⟩ <;>
    try exact List.Perm.refl _
  by_cases h : c0.rank = Ace ∧ c1.rank = Five ∧ c2.rank = Four ∧ c3.rank = Three ∧
    c4.rank = Two
  · rw [formLowStraight, if_pos h]
    show List.Perm ([c1, c2, c3, c4] ++ [c0]) ([c0] ++ [c1, c2, c3, c4])
    exact List.perm_append_comm
  · rw [formLowStraight, if_neg h]

theorem descRanks_perm (al : Bool) : List.Perm (descRanks al) allRanks :=
  sortByLe_perm _ _

theorem descRanks_nodup (al : Bool) : (descRanks al).Nodup :=
  ((descRanks_perm al).nodup_iff).mpr (by decide)

theorem mem_descRanks {r : Rank} (al : Bool) (h : r ∈ allRanks) : r ∈ descRanks al :=
  (descRanks_perm al).mem_iff.mpr h

theorem realPart_perm (cards : List Card) (opts : Options)
    (hval : ∀ c ∈ cards, validCard c)
    (hle : ∀ c ∈ cards, (cardsForRank cards c.rank).length ≤ 4) :
    List.Perm (realPart cards opts) cards := by
  unfold realPart
  set le := fun a b : Card =>
    decide (IndexOf opts.AceIsLow b.rank ≤ IndexOf opts.AceIsLow a.rank) with hledef
  have hsp : List.Perm (sortByLe le cards) cards := sortByLe_perm le cards
  refine List.Perm.trans ?_ hsp
  refine groupLoop_perm _ _ (descRanks_nodup opts.AceIsLow) ?_ ?_
  · intro c hc
    exact mem_descRanks opts.AceIsLow (hval c (hsp.mem_iff.mp hc)).1
  · intro c hc
    rw [cardsForRank_perm_length hsp c.rank]
    exact hle c (hsp.mem_iff.mp hc)

theorem formCards_eq_realPart (cards : List Card) (opts : Options) :
    formCards cards opts =
      formLowStraight (realPart cards opts ++ blankPad (5 - (realPart cards opts).length)) :=
  rfl

theorem blankPad_length (d : Nat) : (blankPad d).length = d := by
  simp [blankPad]

theorem formLowStraight_length (l : List Card) :
    (formLowStraight l).length = l.length :=
  (formLowStraight_perm l).length_eq

theorem formCards_length (cards : List Card) (opts : Options)
    (hval : ∀ c ∈ cards, validCard c)
    (hle : ∀ c ∈ cards, (cardsForRank cards c.rank).length ≤ 4)
    (hlen : cards.length ≤ 5) :
    (formCards cards opts).length = 5 := by
  rw [formCards_eq_realPart, formLowStraight_length, List.length_append, blankPad_length,
    (realPart_perm cards opts hval hle).length_eq]
  omega

/-! ### Bounded rank multiplicity in a duplicate-free deck -/

theorem count_rank_le_four (cards : List Card) (hnd : cards.Nodup)
    (hval : ∀ c ∈ cards, validCard c) (r : Rank) :
    (cardsForRank cards r).length ≤ 4 := by
  have hnd' : (cardsForRank cards r).Nodup := hnd.filter _
  have hinj : ∀ x ∈ cardsForRank cards r, ∀ y ∈ cardsForRank cards r,
      x.suit = y.suit → x = y := by
    intro x hx y hy hsuit
    have hxr : x.rank = r := by simpa using (List.mem_filter.mp hx).2
    have hyr : y.rank = r := by simpa using (List.mem_filter.mp hy).2
    cases x
    cases y
    simp only [Card.mk.injEq]
    exact ⟨hxr.trans hyr.symm, hsuit⟩
  have hndm : ((cardsForRank cards r).map Card.suit).Nodup := hnd'.map_on hinj
  have hsub : (cardsForRank cards r).map Card.suit ⊆ allSuits := by
    intro s hs
    rcases List.mem_map.mp hs with ⟨x, hx, rfl⟩
    exact (hval x (List.mem_filter.mp hx).1).2
  have := (hndm.subperm hsub).length_le
  simpa using this

/-! ### Canonical ordering of the grouped cards -/

theorem groupLoop_eq_flatten (sorted : List Card) (ranks : List Rank) :
    groupLoop sorted ranks =
      ((sizeRankPairs ranks).map (fun p => chunk sorted p.1 p.2)).flatten := by
  unfold groupLoop sizeRankPairs
  simp only [List.map_flatten, List.map_map, List.flatten_append, List.map_append,
    List.map_cons, List.map_nil, List.flatten_cons, List.flatten_nil, List.append_nil]
  rfl

theorem mem_chunk {sorted : List Card} {i : Nat} {r : Rank} {c : Card}
    (hc : c ∈ chunk sorted i r) :
    c.rank = r ∧ (cardsForRank sorted c.rank).length = i := by
  unfold chunk at hc
  by_cases he : (cardsForRank sorted r).length = i
  · rw [if_pos he] at hc
    have hcr : c.rank = r := by simpa using (List.mem_filter.mp hc).2
    exact ⟨hcr, by rw [hcr]; exact he⟩
  · rw [if_neg he] at hc
    simp at hc

theorem groupLoop_pairwise (al : Bool) (sorted : List Card) :
    (groupLoop sorted (descRanks al)).Pairwise (canonKeyGE al sorted) := by
  rw [groupLoop_eq_flatten, List.pairwise_flatten]
  constructor
  · intro l hl
    rcases List.mem_map.mp hl with ⟨p, hp, rfl⟩
    refine List.pairwise_of_forall_mem_list ?_
    intro a ha b hb
    rcases mem_chunk ha with ⟨har, -⟩
    rcases mem_chunk hb with ⟨hbr, -⟩
    right
    refine ⟨by rw [har, hbr], ?_⟩
    have hidx : IndexOf al b.rank = IndexOf al a.rank := by rw [har, hbr]
    exact le_of_eq hidx
  · rw [List.pairwise_map]
    have hp : (sizeRankPairs (descRanks al)).Pairwise
        (fun p q => q.1 < p.1 ∨ (p.1 = q.1 ∧ IndexOf al q.2 < IndexOf al p.2)) := by
      cases al <;> decide
    refine hp.imp ?_
    intro p q hpq x hx y hy
    rcases mem_chunk hx with ⟨hxr, hxc⟩
    rcases mem_chunk hy with ⟨hyr, hyc⟩
    unfold canonKeyGE
    rcases hpq with hlt | ⟨heq, hidx⟩
    · left
      rw [hxc, hyc]
      exact hlt
    · right
      refine ⟨by rw [hxc, hyc, heq], ?_⟩
      rw [hxr, hyr]
      exact le_of_lt hidx

theorem realPart_pairwise (cards : List Card) (opts : Options) :
    (realPart cards opts).Pairwise (canonKeyGE opts.AceIsLow cards) := by
  unfold realPart
  set le := fun a b : Card =>
    decide (IndexOf opts.AceIsLow b.rank ≤ IndexOf opts.AceIsLow a.rank) with hledef
  have hsp : List.Perm (sortByLe le cards) cards := sortByLe_perm le cards
  have h := groupLoop_pairwise opts.AceIsLow (sortByLe le cards)
  refine h.imp ?_
  intro a b hab
  unfold canonKeyGE at hab ⊢
  rwa [cardsForRank_perm_length hsp a.rank, cardsForRank_perm_length hsp b.rank] at hab

/-! ### Blank sentinels and rank multiplicities in formed hands -/

theorem validRank_not_blank {r : Rank} (h : r ∈ allRanks) : isBlankRank r = false := by
  simp only [allRanks, List.mem_cons, List.not_mem_nil, or_false] at h
  rcases h with rfl | rfl | rfl | rfl | rfl | rfl | rfl | rfl | rfl | rfl | rfl | rfl | rfl <;>
    decide

theorem blankCard_blank (i : Nat) : isBlankRank (blankCard i).rank = true := by
  unfold blankCard isBlankRank
  show (("?" ++ toString i).data.any (fun ch => ch == '?')) = true
  have h : ("?" ++ toString i).data = '?' :: (toString i).data := rfl
  rw [h]
  simp

theorem mem_blankPad {d : Nat} {b : Card} (hb : b ∈ blankPad d) :
    ∃ i, i < d ∧ b = blankCard (i + 1) := by
  unfold blankPad at hb
  rcases List.mem_map.mp hb with ⟨i, hi, rfl⟩
  exact ⟨i, by simpa using hi, rfl⟩

theorem blankPad_all_blank {d : Nat} {b : Card} (hb : b ∈ blankPad d) :
    isBlankRank b.rank = true := by
  rcases mem_blankPad hb with ⟨i, -, rfl⟩
  exact blankCard_blank (i + 1)

theorem blankPad_count (d : Nat) (hd : d ≤ 5) (b : Card) (hb : b ∈ blankPad d) :
    (cardsForRank (blankPad d) b.rank).length = 1 := by
  interval_cases d
  · simp [blankPad] at hb
  · have he : blankPad 1 = [blankCard 1] := rfl
    rw [he] at hb ⊢
    rcases (by simpa using hb : b = blankCard 1) with rfl
    decide
  · have he : blankPad 2 = [blankCard 1, blankCard 2] := rfl
    rw [he] at hb ⊢
    rcases (by simpa using hb : b = blankCard 1 ∨ b = blankCard 2) with rfl | rfl <;> decide
  · have he : blankPad 3 = [blankCard 1, blankCard 2, blankCard 3] := rfl
    rw [he] at hb ⊢
    rcases (by simpa using hb : b = blankCard 1 ∨ b = blankCard 2 ∨ b = blankCard 3) with
      rfl | rfl | rfl <;> decide
  · have he : blankPad 4 = [blankCard 1, blankCard 2, blankCard 3, blankCard 4] := rfl
    rw [he] at hb ⊢
    rcases (by simpa using hb :
        b = blankCard 1 ∨ b = blankCard 2 ∨ b = blankCard 3 ∨ b = blankCard 4) with
      rfl | rfl | rfl | rfl <;> decide
  · have he : blankPad 5 = [blankCard 1, blankCard 2, blankCard 3, blankCard 4, blankCard 5] :=
      rfl
    rw [he] at hb ⊢
    rcases (by simpa using hb :
        b = blankCard 1 ∨ b = blankCard 2 ∨ b = blankCard 3 ∨ b = blankCard 4 ∨
          b = blankCard 5) with rfl | rfl | rfl | rfl | rfl <;> decide

theorem mem_groupLoop {sorted : List Card} {ranks : List Rank} {c : Card}
    (hc : c ∈ groupLoop sorted ranks) : c ∈ sorted := by
  rw [groupLoop_eq_flatten] at hc
  rcases List.mem_flatten.mp hc with ⟨l, hl, hcl⟩
  rcases List.mem_map.mp hl with ⟨p, hp, rfl⟩
  unfold chunk at hcl
  by_cases he : (cardsForRank sorted p.2).length = p.1
  · rw [if_pos he] at hcl
    exact (List.mem_filter.mp hcl).1
  · rw [if_neg he] at hcl
    simp at hcl

theorem realPart_subset (cards : List Card) (opts : Options) :
    ∀ c ∈ realPart cards opts, c ∈ cards := fun c hc =>
  (sortByLe_perm _ cards).mem_iff.mp (mem_groupLoop hc)

theorem realPart_not_blank (cards : List Card) (opts : Options)
    (hval : ∀ c ∈ cards, validCard c) :
    ∀ c ∈ realPart cards opts, isBlankRank c.rank = false := fun c hc =>
  validRank_not_blank (hval c (realPart_subset cards opts c hc)).1

theorem cardsForRank_no_blank (l : List Card) (hl : ∀ c ∈ l, isBlankRank c.rank = false)
    (r : Rank) (hr : isBlankRank r = true) : cardsForRank l r = [] := by
  unfold cardsForRank
  rw [List.filter_eq_nil_iff]
  intro c hc
  simp only [decide_eq_true_eq]
  intro he
  rw [← he] at hr
  rw [hl c hc] at hr
  simp at hr

theorem cardsForRank_pad_valid (d : Nat) (r : Rank) (hr : isBlankRank r = false) :
    cardsForRank (blankPad d) r = [] := by
  unfold cardsForRank
  rw [List.filter_eq_nil_iff]
  intro b hb
  simp only [decide_eq_true_eq]
  intro he
  rw [← he, blankPad_all_blank hb] at hr
  simp at hr

theorem cardsForRank_formCards (cards : List Card) (opts : Options) (r : Rank) :
    (cardsForRank (formCards cards opts) r).length =
      (cardsForRank (realPart cards opts) r).length +
        (cardsForRank (blankPad (5 - (realPart cards opts).length)) r).length := by
  rw [formCards_eq_realPart,
    cardsForRank_perm_length (formLowStraight_perm _) r]
  unfold cardsForRank
  rw [List.filter_append, List.length_append]

theorem mem_formCards {cards : List Card} {opts : Options} {c : Card}
    (hc : c ∈ formCards cards opts) :
    c ∈ realPart cards opts ∨ c ∈ blankPad (5 - (realPart cards opts).length) := by
  rw [formCards_eq_realPart] at hc
  exact List.mem_append.mp ((formLowStraight_perm _).mem_iff.mp hc)

theorem hasBlankCards_formCards (cards : List Card) (opts : Options)
    (hlt : (realPart cards opts).length < 5) :
    hasBlankCards (formCards cards opts) = true := by
  unfold hasBlankCards
  rw [List.any_eq_true]
  refine ⟨blankCard 1, ?_, by decide⟩
  rw [formCards_eq_realPart]
  refine (formLowStraight_perm _).mem_iff.mpr (List.mem_append_right _ ?_)
  unfold blankPad
  refine List.mem_map.mpr ⟨0, ?_, rfl⟩
  simp
  omega

theorem hasFlush_of_blank (cards : List Card) (h : hasBlankCards cards = true) :
    hasFlush cards = false := by
  unfold hasFlush
  rw [if_pos h]

theorem hasStraight_of_blank (al : Bool) (cards : List Card)
    (h : hasBlankCards cards = true) : hasStraight al cards = false := by
  unfold hasStraight
  rw [if_pos h]

theorem count_rank_distinct (cards : List Card)
    (hpw : cards.Pairwise (fun a b => a.rank ≠ b.rank)) :
    ∀ x ∈ cards, (cardsForRank cards x.rank).length = 1 := by
  induction cards with
  | nil => simp
  | cons c rest ih =>
    rcases List.pairwise_cons.mp hpw with ⟨hc, hrest⟩
    intro x hx
    rcases List.mem_cons.mp hx with rfl | hx'
    · have hnil : cardsForRank rest x.rank = [] := by
        unfold cardsForRank
        rw [List.filter_eq_nil_iff]
        intro a ha
        simp only [decide_eq_true_eq]
        exact fun he => (hc a ha) he.symm
      unfold cardsForRank at hnil ⊢
      rw [List.filter_cons_of_pos (by simp), hnil]
      rfl
    · have hcx : ¬(c.rank = x.rank) := hc x hx'
      unfold cardsForRank at ih ⊢
      rw [List.filter_cons_of_neg (by simpa using hcx)]
      exact ih hrest x hx'

theorem hasPairs_ones (cards : List Card) (hlen : cards.length = 5)
    (h1 : ∀ c ∈ cards, (cardsForRank cards c.rank).length = 1) :
    hasPairs cards [1, 1, 1, 1, 1] = true := by
  unfold hasPairs
  rw [List.all_eq_true]
  intro i hi
  have hi5 : i < 5 := by simpa using hi
  have hmem : cards.getD i noCard ∈ cards := by
    rw [List.getD_eq_getElem cards noCard (by omega)]
    exact List.getElem_mem _
  simp only [decide_eq_true_eq]
  have hl : ([1, 1, 1, 1, 1] : List Nat).getD i 0 = 1 := by
    interval_cases i <;> rfl
  rw [hl, h1 _ hmem]

theorem handForFiveCards_some_cards {cards : List Card} {opts : Options} {h : Hand}
    (hh : handForFiveCards cards opts = some h) :
    h.cards = formCards cards opts := by
  simp only [handForFiveCards] at hh
  cases hfind : rankings.find? (fun rk => rk.vFunc (formCards cards opts) opts) with
  | none => rw [hfind] at hh; exact absurd hh (by simp)
  | some rk =>
    rw [hfind] at hh
    rw [Option.some.injEq] at hh
    rw [← hh]

theorem handForFiveCards_highCard (cards : List Card) (opts : Options)
    (hv : highCard.vFunc (formCards cards opts) opts = true) :
    handForFiveCards cards opts =
      some { ranking := Ranking.HighCard, cards := formCards cards opts,
             description := highCard.dFunc (formCards cards opts) } := by
  simp only [handForFiveCards, rankings]
  have hfind : List.find? (fun rk => rk.vFunc (formCards cards opts) opts)
      (highCard :: [pair, twoPair, threeOfAKind, straight, flush, fullHouse, fourOfAKind,
        straightFlush, royalFlush]) = some highCard := List.find?_cons_of_pos _ hv
  rw [hfind]
  rfl

theorem choose_big_nil {α : Type} :
    ∀ (l : List α) (k : Nat), l.length < k → choose k l = [] := by
  intro l
  induction l with
  | nil =>
    intro k hk
    cases k with
    | zero => omega
    | succ k' => rfl
  | cons c rest ih =>
    intro k hk
    cases k with
    | zero => omega
    | succ k' =>
      rw [choose, ih k' (by simp at hk; omega), ih (k' + 1) (by simp at hk; omega)]
      rfl

theorem choose_self {α : Type} :
    ∀ l : List α, choose l.length l = [l] := by
  intro l
  induction l with
  | nil => rfl
  | cons c rest ih =>
    rw [List.length_cons, choose, ih, choose_big_nil rest (rest.length + 1) (by omega)]
    rfl

/-! ### Destructuring the hand selector -/

theorem NewHandWithOptions_destruct (cards : List Card) (opts : Options) (best : Hand)
    (hbest : NewHandWithOptions cards opts = some best) :
    ∃ hands, handsForCombos (cardCombos cards) opts = some hands ∧
      (opts.Sorting = HandSorting.High →
        (sortByLe (fun a b => decide (compareTo opts.AceIsLow a b ≤ 0)) hands).getLast? =
          some best) ∧
      (opts.Sorting = HandSorting.Low →
        (sortByLe (fun a b => decide (compareTo opts.AceIsLow a b ≤ 0)) hands).head? =
          some best) := by
  simp only [NewHandWithOptions] at hbest
  cases e : handsForCombos (cardCombos cards) opts with
  | none =>
    rw [e] at hbest
    exact absurd hbest (by simp)
  | some hands =>
    rw [e] at hbest
    refine ⟨hands, rfl, ?_, ?_⟩
    · intro hsort
      rw [hsort] at hbest
      exact hbest
    · intro hsort
      rw [hsort] at hbest
      exact hbest

theorem hands_all_length5 (cards : List Card) (opts : Options) (hands : List Hand)
    (hnd : cards.Nodup) (hval : ∀ c ∈ cards, validCard c)
    (hh : handsForCombos (cardCombos cards) opts = some hands) :
    ∀ hd ∈ hands, hd.cards.length = 5 := by
  intro hd hmem
  rcases handsForCombos_mem_rev _ _ _ hh hd hmem with ⟨combo, hcombo, heval⟩
  rw [cardCombos_eq_choose] at hcombo
  rcases choose_mem_sublist _ _ _ hcombo with ⟨hsub, hlen⟩
  have hval' : ∀ c ∈ combo, validCard c := fun c hc => hval c (hsub.subset hc)
  have hnd' : combo.Nodup := hsub.nodup hnd
  have hle : ∀ c ∈ combo, (cardsForRank combo c.rank).length ≤ 4 := fun c _ =>
    count_rank_le_four combo hnd' hval' c.rank
  have hlen5 : combo.length ≤ 5 := by
    rw [hlen]
    split <;> omega
  rw [handForFiveCards_some_cards heval]
  exact formCards_length combo opts hval' hle hlen5

/-! ### The claims -/

/-- C3: with `Sorting = High` (the default) `NewHandWithOptions` returns a hand
that is, under the comparator, greater than or equal to the hand of every
5-card combination of the (duplicate-free, valid) input; with `Sorting = Low`
it returns a comparator-minimal candidate. -/
theorem C3_selector_extremal (cards : List Card) (opts : Options)
    (hnd : cards.Nodup) (hval : ∀ c ∈ cards, validCard c)
    (best : Hand) (hbest : NewHandWithOptions cards opts = some best)
    (sub : List Card) (hsub : sub.Sublist cards) (hlen : sub.length = 5)
    (hs : Hand) (hhs : handForFiveCards sub opts = some hs) :
    (opts.Sorting = HandSorting.High → 0 ≤ compareTo opts.AceIsLow best hs) ∧
    (opts.Sorting = HandSorting.Low → compareTo opts.AceIsLow best hs ≤ 0) := by
  have h5 : 5 ≤ cards.length := by
    have := hsub.length_le
    omega
  have hcombo : sub ∈ cardCombos cards := by
    rw [cardCombos_eq_choose, if_neg (by omega)]
    exact choose_sublist_mem cards sub 5 hsub hlen
  rcases NewHandWithOptions_destruct cards opts best hbest with ⟨hands, hh, hselH, hselL⟩
  have hlen5 : ∀ hd ∈ hands, hd.cards.length = 5 :=
    hands_all_length5 cards opts hands hnd hval hh
  rcases handsForCombos_mem_fwd _ _ _ hh sub hcombo with ⟨hd, hhd, heq⟩
  have hdhs : hd = hs := by
    rw [heq] at hhs
    exact (Option.some.injEq _ _).mp hhs
  subst hdhs
  set le := fun a b : Hand => decide (compareTo opts.AceIsLow a b ≤ 0) with hledef
  have hsorted : (sortByLe le hands).Pairwise (fun a b => le a b = true) := by
    apply sortByLe_pairwise
    · intro a _ b _
      rcases le_or_lt (compareTo opts.AceIsLow a b) 0 with h | h
      · exact Or.inl (decide_eq_true h)
      · refine Or.inr (decide_eq_true ?_)
        have := compareTo_neg opts.AceIsLow a b
        omega
    · intro a ha b hb c hc hab hbc
      exact decide_eq_true (compareTo_trans_nonpos _ a b c (hlen5 a ha) (hlen5 b hb)
        (hlen5 c hc) (of_decide_eq_true hab) (of_decide_eq_true hbc))
  have hd_sorted : hd ∈ sortByLe le hands := (sortByLe_perm le hands).mem_iff.mpr hhd
  constructor
  · intro hsort
    rcases pairwise_getLast_max le _ best hsorted (hselH hsort) hd hd_sorted with heq | hle
    · rw [heq]
      have := compareTo_neg opts.AceIsLow best best
      omega
    · have h1 : compareTo opts.AceIsLow hd best ≤ 0 := of_decide_eq_true hle
      have h2 := compareTo_neg opts.AceIsLow best hd
      omega
  · intro hsort
    rcases pairwise_head_min le _ best hsorted (hselL hsort) hd hd_sorted with heq | hle
    · rw [heq]
      have := compareTo_neg opts.AceIsLow best best
      omega
    · exact of_decide_eq_true hle

theorem C3_selector_extremal_witness :
    (({} : Options).Sorting = HandSorting.High →
      0 ≤ compareTo ({} : Options).AceIsLow wHandHigh wHandHigh) ∧
    (({} : Options).Sorting = HandSorting.Low →
      compareTo ({} : Options).AceIsLow wHandHigh wHandHigh ≤ 0) :=
  C3_selector_extremal wCards {} (by decide) (by decide) wHandHigh (by decide)
    wCards (List.Sublist.refl _) (by decide) wHandHigh (by decide)

/-- C4: `CompareTo` is positive exactly when the first hand is stronger
(larger ranking category, else first differing canonical position under the
active ace ordering), negative exactly when weaker, zero exactly when category
and all five positional rank indexes agree; suits never affect the result. -/
theorem C4_compareTo_semantics (al : Bool) (a b : Hand)
    (ha : a.cards.length = 5) (hb : b.cards.length = 5) :
    (0 < compareTo al a b ↔ StrongerSpec al a b) ∧
    (compareTo al a b < 0 ↔ StrongerSpec al b a) ∧
    (compareTo al a b = 0 ↔
      a.ranking = b.ranking ∧ ∀ i, i < 5 → rankIdxAt al a i = rankIdxAt al b i) ∧
    (∀ a' : Hand, a'.ranking = a.ranking → a'.cards.map Card.rank = a.cards.map Card.rank →
      compareTo al a' b = compareTo al a b) := by
  refine ⟨compareTo_pos_iff al a b ha hb, ?_, compareTo_zero_iff al a b ha hb, ?_⟩
  · rw [← compareTo_pos_iff al b a hb ha]
    have := compareTo_neg al a b
    omega
  · intro a' hr hmap
    unfold compareTo
    rw [hr]
    have hidx : a'.cards.map (fun c => IndexOf al c.rank) =
        a.cards.map (fun c => IndexOf al c.rank) := by
      have h1 : a'.cards.map (fun c => IndexOf al c.rank) =
          (a'.cards.map Card.rank).map (IndexOf al) := by
        rw [List.map_map]
        rfl
      rw [h1, hmap, List.map_map]
      rfl
    rw [hidx]

theorem C4_compareTo_semantics_witness :
    (0 < compareTo false wHandPair wHandHigh ↔ StrongerSpec false wHandPair wHandHigh) ∧
    (compareTo false wHandPair wHandHigh < 0 ↔ StrongerSpec false wHandHigh wHandPair) ∧
    (compareTo false wHandPair wHandHigh = 0 ↔
      wHandPair.ranking = wHandHigh.ranking ∧
        ∀ i, i < 5 → rankIdxAt false wHandPair i = rankIdxAt false wHandHigh i) ∧
    (∀ a' : Hand, a'.ranking = wHandPair.ranking →
      a'.cards.map Card.rank = wHandPair.cards.map Card.rank →
      compareTo false a' wHandHigh = compareTo false wHandPair wHandHigh) :=
  C4_compareTo_semantics false wHandPair wHandHigh (by decide) (by decide)

/-- C7: the comparator is a strict total order on hand value — comparisons in
the two directions are exact negatives of each other (so their signs are
opposite, and both are zero exactly for value-equal hands), and strict
superiority is transitive. -/
theorem C7_compareTo_total_order (al : Bool) (a b c : Hand)
    (ha : a.cards.length = 5) (hb : b.cards.length = 5) (hc : c.cards.length = 5) :
    compareTo al a b = -(compareTo al b a) ∧
      (0 < compareTo al a b → 0 < compareTo al b c → 0 < compareTo al a c) :=
  ⟨compareTo_neg al a b, compareTo_trans_pos al a b c ha hb hc⟩

theorem C7_compareTo_total_order_witness :
    compareTo false wHandFlush wHandPair = -(compareTo false wHandPair wHandFlush) ∧
      (0 < compareTo false wHandFlush wHandPair →
        0 < compareTo false wHandPair wHandKing →
        0 < compareTo false wHandFlush wHandKing) :=
  C7_compareTo_total_order false wHandFlush wHandPair wHandKing
    (by decide) (by decide) (by decide)

/-- C1: the claim fails on the code — with `IgnoreStraights` set (and
`IgnoreFlushes` clear), the straight-flush shape 9♠ 8♠ 7♠ 6♠ 5♠ satisfies no
classifier (`highCard` still demands "not flush", `flush` demands "not
straight", the straight family is disabled), so `handForFiveCards` reaches
the `panic("should never get here")` branch, modelled as `none`. -/
theorem C1_classifier_exhaustion_reachable :
    handForFiveCards
      [⟨Nine, Spades⟩, ⟨Eight, Spades⟩, ⟨Seven, Spades⟩, ⟨Six, Spades⟩, ⟨Five, Spades⟩]
      { IgnoreStraights := true } = none := by decide

/-- C2: the claim fails on the code — with `IgnoreFlushes` set, the
straight-flush shape 6♠ 5♠ 4♠ 3♠ 2♠ is classified neither as `Straight` nor as
`HighCard` (nor anything else): no classifier matches and `handForFiveCards`
reaches the panic branch, modelled as `none`. -/
theorem C2_ignored_flush_shape_unclassified :
    handForFiveCards
      [⟨Six, Spades⟩, ⟨Five, Spades⟩, ⟨Four, Spades⟩, ⟨Three, Spades⟩, ⟨Two, Spades⟩]
      { IgnoreFlushes := true } = none := by decide

/-- C6: evaluating exactly A♠ 2♥ 3♦ 4♣ 5♠ under default options yields a
`Straight` whose canonical cards are [5♠, 4♣, 3♦, 2♥, A♠] (the ace rotated to
last by the wheel fix-up) and whose description is "straight five high". -/
theorem C6_wheel_straight :
    NewHand [⟨Ace, Spades⟩, ⟨Two, Hearts⟩, ⟨Three, Diamonds⟩, ⟨Four, Clubs⟩,
        ⟨Five, Spades⟩] =
      some ⟨Ranking.Straight,
        [⟨Five, Spades⟩, ⟨Four, Clubs⟩, ⟨Three, Diamonds⟩, ⟨Two, Hearts⟩, ⟨Ace, Spades⟩],
        "straight five high"⟩ := by decide

/-- C10: `UnmarshalJSON` returns `ok` on every successfully decoded payload and
an error otherwise, and in both cases leaves every field of the receiver hand
unchanged — the rebuilt hand is bound to a dead local and discarded. -/
theorem C10_unmarshal_discards_result (h : Hand) :
    (∀ cs : List Card, UnmarshalJSON h (Except.ok cs) = (Except.ok (), h)) ∧
    (∀ e : String, UnmarshalJSON h (Except.error e) = (Except.error e, h)) :=
  ⟨fun _ => rfl, fun _ => rfl⟩

/-- C5 counterexample: the two-card input A♠ A♣ is padded but classified as
`Pair`, not `HighCard`, so the claim as stated is false. -/
theorem C5_pair_input_not_highcard :
    ¬((NewHand [⟨Ace, Spades⟩, ⟨Ace, Clubs⟩]).map Hand.ranking =
        some Ranking.HighCard) := by decide

/-- C8: for every non-empty duplicate-free valid input, the returned hand has
exactly five canonical cards obtained from one enumerated combination by
grouping: a permutation of that combination ordered by group size descending
then rank descending under the active ace ordering (cards of one rank stay
adjacent because they share both keys), followed by the blank padding, up to
the wheel fix-up rotation. -/
theorem C8_canonical_padded_form (cards : List Card) (opts : Options)
    (hne : cards ≠ []) (hnd : cards.Nodup) (hval : ∀ c ∈ cards, validCard c)
    (best : Hand) (hbest : NewHandWithOptions cards opts = some best) :
    best.cards.length = 5 ∧
    ∃ combo real : List Card,
      combo.Sublist cards ∧
      combo.length = (if cards.length < 5 then cards.length else 5) ∧
      List.Perm real combo ∧
      real.Pairwise (canonKeyGE opts.AceIsLow combo) ∧
      (∀ c ∈ real, isBlankRank c.rank = false) ∧
      best.cards = formLowStraight (real ++ blankPad (5 - real.length)) := by
  rcases NewHandWithOptions_destruct cards opts best hbest with ⟨hands, hh, hselH, hselL⟩
  have hbm : best ∈ hands := by
    cases hsort : opts.Sorting with
    | High =>
      exact (sortByLe_perm _ hands).mem_iff.mp
        (List.mem_of_getLast?_eq_some (hselH hsort))
    | Low =>
      rcases List.head?_eq_some_iff.mp (hselL hsort) with ⟨ys, hys⟩
      have hin : best ∈ sortByLe (fun a b => decide (compareTo opts.AceIsLow a b ≤ 0)) hands := by
        rw [hys]
        simp
      exact (sortByLe_perm _ hands).mem_iff.mp hin
  rcases handsForCombos_mem_rev _ _ _ hh best hbm with ⟨combo, hcombo, heval⟩
  rw [cardCombos_eq_choose] at hcombo
  rcases choose_mem_sublist _ _ _ hcombo with ⟨hsub, hclen⟩
  have hval' : ∀ c ∈ combo, validCard c := fun c hc => hval c (hsub.subset hc)
  have hnd' : combo.Nodup := hsub.nodup hnd
  have hle : ∀ c ∈ combo, (cardsForRank combo c.rank).length ≤ 4 := fun c _ =>
    count_rank_le_four combo hnd' hval' c.rank
  have hc5 : combo.length ≤ 5 := by
    rw [hclen]
    split <;> omega
  have hcards := handForFiveCards_some_cards heval
  constructor
  · rw [hcards]
    exact formCards_length combo opts hval' hle hc5
  · exact ⟨combo, realPart combo opts, hsub, hclen, realPart_perm combo opts hval' hle,
      realPart_pairwise combo opts, realPart_not_blank combo opts hval',
      by rw [hcards, formCards_eq_realPart]⟩

theorem C8_canonical_padded_form_witness :
    wPairBest.cards.length = 5 ∧
    ∃ combo real : List Card,
      combo.Sublist wPairCards ∧
      combo.length = (if wPairCards.length < 5 then wPairCards.length else 5) ∧
      List.Perm real combo ∧
      real.Pairwise (canonKeyGE ({} : Options).AceIsLow combo) ∧
      (∀ c ∈ real, isBlankRank c.rank = false) ∧
      wPairBest.cards = formLowStraight (real ++ blankPad (5 - real.length)) :=
  C8_canonical_padded_form wPairCards {} (by decide) (by decide) (by decide)
    wPairBest (by decide)

/-- C9: blank sentinels never satisfy the flush or straight predicates (both
return `false` as soon as any card's rank carries the `?` marker), and in any
formed hand over valid input each padded blank carries a rank distinct from
every other card, so its rank multiplicity — the count `hasPairs` consults —
is exactly 1. -/
theorem C9_blank_sentinels_inert (opts : Options) :
    (∀ cards : List Card, hasBlankCards cards = true →
      hasFlush cards = false ∧ hasStraight opts.AceIsLow cards = false) ∧
    (∀ cards : List Card, (∀ c ∈ cards, validCard c) →
      ∀ b ∈ formCards cards opts, isBlankRank b.rank = true →
        (cardsForRank (formCards cards opts) b.rank).length = 1) := by
  constructor
  · intro cards h
    exact ⟨hasFlush_of_blank cards h, hasStraight_of_blank opts.AceIsLow cards h⟩
  · intro cards hval b hb hbl
    rw [cardsForRank_formCards,
      cardsForRank_no_blank _ (realPart_not_blank cards opts hval) _ hbl]
    rcases mem_formCards hb with hreal | hpad
    · exact absurd hbl (by rw [realPart_not_blank cards opts hval b hreal]; simp)
    · rw [blankPad_count _ (by omega) b hpad]
      rfl

theorem C9_blank_sentinels_inert_witness :
    (hasFlush [blankCard 1] = false ∧
      hasStraight (({} : Options).AceIsLow) [blankCard 1] = false) ∧
    (cardsForRank (formCards wPairCards {}) (blankCard 1).rank).length = 1 :=
  ⟨(C9_blank_sentinels_inert {}).1 [blankCard 1] (by decide),
    (C9_blank_sentinels_inert {}).2 wPairCards (by decide) (blankCard 1) (by decide)
      (by decide)⟩

/-! ### Classifier exhaustiveness for fewer than five real cards -/

theorem blankCard_rank_ne (c : Card) (hc : c.rank ∈ allRanks) (j : Nat) :
    (blankCard j).rank ≠ c.rank := by
  intro he
  have hb := blankCard_blank j
  rw [he, validRank_not_blank hc] at hb
  simp at hb

theorem formLowStraight_id (l : List Card) (h5 : l.length = 5)
    (hlast : (l.getD 4 noCard).rank ≠ Two) : formLowStraight l = l := by
  rcases l with _ | ⟨c0, _ | ⟨c1, _ | ⟨c2, _ | ⟨c3, _ | ⟨c4, _ | ⟨c5, r⟩⟩⟩⟩⟩⟩
  · simp at h5
  · simp at h5
  · simp at h5
  · simp at h5
  · simp at h5
  · rw [formLowStraight, if_neg]
    rintro ⟨-, -, -, -, hc4⟩
    exact hlast (by simpa using hc4)
  · simp at h5

theorem formCards_small (cards : List Card) (opts : Options)
    (hval : ∀ c ∈ cards, validCard c) (h1 : 1 ≤ cards.length) (h4 : cards.length ≤ 4) :
    formCards cards opts =
      realPart cards opts ++ blankPad (5 - (realPart cards opts).length) := by
  have hle : ∀ c ∈ cards, (cardsForRank cards c.rank).length ≤ 4 := fun c _ =>
    le_trans (List.length_filter_le _ _) h4
  have hrlen : (realPart cards opts).length = cards.length :=
    (realPart_perm cards opts hval hle).length_eq
  rw [formCards_eq_realPart]
  apply formLowStraight_id
  · rw [List.length_append, blankPad_length]
    omega
  · rw [List.getD_append_right _ _ _ _ (by omega)]
    have hmem : (blankPad (5 - (realPart cards opts).length)).getD
        (4 - (realPart cards opts).length) noCard ∈
        blankPad (5 - (realPart cards opts).length) := by
      rw [List.getD_eq_getElem _ _ (by rw [blankPad_length]; omega)]
      exact List.getElem_mem _
    have hb := blankPad_all_blank hmem
    intro he
    rw [he] at hb
    exact absurd hb (by decide)

theorem handForFiveCards_isSome_of_exists (cards : List Card) (opts : Options)
    (h : ∃ rk ∈ rankings, rk.vFunc (formCards cards opts) opts = true) :
    ∃ hd, handForFiveCards cards opts = some hd := by
  simp only [handForFiveCards]
  have hsome : (rankings.find? (fun rk => rk.vFunc (formCards cards opts) opts)).isSome := by
    rw [List.find?_isSome]
    rcases h with ⟨rk, hmem, hv⟩
    exact ⟨rk, hmem, hv⟩
  rcases Option.isSome_iff_exists.mp hsome with ⟨rk', hrk'⟩
  rw [hrk']
  exact ⟨_, rfl⟩

theorem highCard_vFunc_true (l : List Card) (opts : Options)
    (hp : hasPairs l [1, 1, 1, 1, 1] = true)
    (hf : hasFlush l = false) (hs : hasStraight opts.AceIsLow l = false) :
    highCard.vFunc l opts = true := by
  simp only [highCard]
  simp [hp, hf, hs]

theorem canonKeyGE_count_le {al : Bool} {cards : List Card} {a b : Card}
    (h : canonKeyGE al cards a b) :
    (cardsForRank cards b.rank).length ≤ (cardsForRank cards a.rank).length := by
  rcases h with h | ⟨h, -⟩ <;> omega

theorem pair_vFunc (l : List Card) (o : Options) :
    pair.vFunc l o = hasPairs l [2, 2, 1, 1, 1] := rfl

theorem twoPair_vFunc (l : List Card) (o : Options) :
    twoPair.vFunc l o = hasPairs l [2, 2, 2, 2, 1] := rfl

theorem threeOfAKind_vFunc (l : List Card) (o : Options) :
    threeOfAKind.vFunc l o = hasPairs l [3, 3, 3, 1, 1] := rfl

theorem fourOfAKind_vFunc (l : List Card) (o : Options) :
    fourOfAKind.vFunc l o = hasPairs l [4, 4, 4, 4, 1] := rfl

theorem handForFiveCards_small_isSome (cards : List Card) (opts : Options)
    (hval : ∀ c ∈ cards, validCard c) (h1 : 1 ≤ cards.length) (h4 : cards.length ≤ 4) :
    ∃ hd, handForFiveCards cards opts = some hd := by
  have hle : ∀ c ∈ cards, (cardsForRank cards c.rank).length ≤ 4 := fun c _ =>
    le_trans (List.length_filter_le _ _) h4
  have hsmall := formCards_small cards opts hval h1 h4
  have hperm : List.Perm (realPart cards opts) cards := realPart_perm cards opts hval hle
  have hpw := realPart_pairwise cards opts
  have hrval : ∀ c ∈ realPart cards opts, validCard c := fun c hc =>
    hval c (hperm.mem_iff.mp hc)
  have hrlen : (realPart cards opts).length = cards.length := hperm.length_eq
  have hblank : hasBlankCards (formCards cards opts) = true :=
    hasBlankCards_formCards cards opts (by omega)
  have hflush := hasFlush_of_blank _ hblank
  have hstraight := hasStraight_of_blank opts.AceIsLow _ hblank
  obtain ⟨real, hreal⟩ : ∃ r, realPart cards opts = r := ⟨_, rfl⟩
  rw [hreal] at hsmall hperm hpw hrval hrlen
  rcases real with _ | ⟨x, real⟩
  · simp at hrlen
    omega
  rcases real with _ | ⟨y, real⟩
  · -- one real card: high card
    have hvx := (hrval x (by simp)).1
    have b1x := blankCard_rank_ne x hvx 1
    have b2x := blankCard_rank_ne x hvx 2
    have b3x := blankCard_rank_ne x hvx 3
    have b4x := blankCard_rank_ne x hvx 4
    refine handForFiveCards_isSome_of_exists cards opts ⟨highCard, by simp [rankings], ?_⟩
    refine highCard_vFunc_true _ opts ?_ hflush hstraight
    rw [hsmall]
    show hasPairs [x, blankCard 1, blankCard 2, blankCard 3, blankCard 4]
      [1, 1, 1, 1, 1] = true
    unfold hasPairs
    rw [List.all_eq_true]
    intro i hi
    rw [List.mem_range] at hi
    interval_cases i <;>
      simp +decide [cardsForRank, b1x, b2x, b3x, b4x,
        Ne.symm b1x, Ne.symm b2x, Ne.symm b3x, Ne.symm b4x]
  rcases real with _ | ⟨z, real⟩
  · -- two real cards
    have hvx := (hrval x (by simp)).1
    have hvy := (hrval y (by simp)).1
    have b1x := blankCard_rank_ne x hvx 1
    have b2x := blankCard_rank_ne x hvx 2
    have b3x := blankCard_rank_ne x hvx 3
    have b1y := blankCard_rank_ne y hvy 1
    have b2y := blankCard_rank_ne y hvy 2
    have b3y := blankCard_rank_ne y hvy 3
    by_cases hxy : y.rank = x.rank
    · refine handForFiveCards_isSome_of_exists cards opts ⟨pair, by simp [rankings], ?_⟩
      rw [pair_vFunc, hsmall]
      show hasPairs [x, y, blankCard 1, blankCard 2, blankCard 3] [2, 2, 1, 1, 1] = true
      unfold hasPairs
      rw [List.all_eq_true]
      intro i hi
      rw [List.mem_range] at hi
      interval_cases i <;>
        simp +decide [cardsForRank, hxy, b1x, b2x, b3x,
          Ne.symm b1x, Ne.symm b2x, Ne.symm b3x]
    · have hyx : ¬(x.rank = y.rank) := fun h => hxy h.symm
      refine handForFiveCards_isSome_of_exists cards opts ⟨highCard, by simp [rankings], ?_⟩
      refine highCard_vFunc_true _ opts ?_ hflush hstraight
      rw [hsmall]
      show hasPairs [x, y, blankCard 1, blankCard 2, blankCard 3] [1, 1, 1, 1, 1] = true
      unfold hasPairs
      rw [List.all_eq_true]
      intro i hi
      rw [List.mem_range] at hi
      interval_cases i <;>
        simp +decide [cardsForRank, hxy, hyx, b1x, b2x, b3x, b1y, b2y, b3y,
          Ne.symm b1x, Ne.symm b2x, Ne.symm b3x, Ne.symm b1y, Ne.symm b2y, Ne.symm b3y]
  rcases real with _ | ⟨w, real⟩
  · -- three real cards
    have hvx := (hrval x (by simp)).1
    have hvy := (hrval y (by simp)).1
    have hvz := (hrval z (by simp)).1
    have b1x := blankCard_rank_ne x hvx 1
    have b2x := blankCard_rank_ne x hvx 2
    have b1y := blankCard_rank_ne y hvy 1
    have b2y := blankCard_rank_ne y hvy 2
    have b1z := blankCard_rank_ne z hvz 1
    have b2z := blankCard_rank_ne z hvz 2
    by_cases hxy : y.rank = x.rank
    · by_cases hzx : z.rank = x.rank
      · -- one rank group of three
        refine handForFiveCards_isSome_of_exists cards opts
          ⟨threeOfAKind, by simp [rankings], ?_⟩
        rw [threeOfAKind_vFunc, hsmall]
        show hasPairs [x, y, z, blankCard 1, blankCard 2] [3, 3, 3, 1, 1] = true
        unfold hasPairs
        rw [List.all_eq_true]
        intro i hi
        rw [List.mem_range] at hi
        interval_cases i <;>
          simp +decide [cardsForRank, hxy, hzx, b1x, b2x, Ne.symm b1x, Ne.symm b2x]
      · -- a pair and a single
        have hxz : ¬(x.rank = z.rank) := fun h => hzx h.symm
        refine handForFiveCards_isSome_of_exists cards opts ⟨pair, by simp [rankings], ?_⟩
        rw [pair_vFunc, hsmall]
        show hasPairs [x, y, z, blankCard 1, blankCard 2] [2, 2, 1, 1, 1] = true
        unfold hasPairs
        rw [List.all_eq_true]
        intro i hi
        rw [List.mem_range] at hi
        interval_cases i <;>
          simp +decide [cardsForRank, hxy, hzx, hxz, b1x, b2x, b1z, b2z,
            Ne.symm b1x, Ne.symm b2x, Ne.symm b1z, Ne.symm b2z]
    · have hyx : ¬(x.rank = y.rank) := fun h => hxy h.symm
      by_cases hzx : z.rank = x.rank
      · -- the middle card would break the grouping: impossible
        exfalso
        have hzy : ¬(z.rank = y.rank) := fun h => hxy (h.symm.trans hzx)
        have hyz : ¬(y.rank = z.rank) := fun h => hzy h.symm
        have hcy : (cardsForRank cards y.rank).length = 1 := by
          rw [← cardsForRank_perm_length hperm y.rank]
          simp +decide [cardsForRank, hyx, hzy]
        have hcz : (cardsForRank cards z.rank).length = 2 := by
          rw [← cardsForRank_perm_length hperm z.rank]
          simp +decide [cardsForRank, hzx.symm, hyz]
        have hR := canonKeyGE_count_le
          ((List.pairwise_cons.mp (List.pairwise_cons.mp hpw).2).1 z (by simp))
        rw [hcy, hcz] at hR
        omega
      · have hxz : ¬(x.rank = z.rank) := fun h => hzx h.symm
        by_cases hzy : z.rank = y.rank
        · -- a single above a pair: impossible
          exfalso
          have hcx : (cardsForRank cards x.rank).length = 1 := by
            rw [← cardsForRank_perm_length hperm x.rank]
            simp +decide [cardsForRank, hxy, hzx]
          have hcy : (cardsForRank cards y.rank).length = 2 := by
            rw [← cardsForRank_perm_length hperm y.rank]
            simp +decide [cardsForRank, hyx, hzy]
          have hR := canonKeyGE_count_le ((List.pairwise_cons.mp hpw).1 y (by simp))
          rw [hcx, hcy] at hR
          omega
        · -- three distinct ranks
          have hyz : ¬(y.rank = z.rank) := fun h => hzy h.symm
          refine handForFiveCards_isSome_of_exists cards opts
            ⟨highCard, by simp [rankings], ?_⟩
          refine highCard_vFunc_true _ opts ?_ hflush hstraight
          rw [hsmall]
          show hasPairs [x, y, z, blankCard 1, blankCard 2] [1, 1, 1, 1, 1] = true
          unfold hasPairs
          rw [List.all_eq_true]
          intro i hi
          rw [List.mem_range] at hi
          interval_cases i <;>
            simp +decide [cardsForRank, hxy, hyx, hzx, hxz, hzy, hyz,
              b1x, b2x, b1y, b2y, b1z, b2z,
              Ne.symm b1x, Ne.symm b2x, Ne.symm b1y, Ne.symm b2y, Ne.symm b1z, Ne.symm b2z]
  rcases real with _ | ⟨u, real⟩
  · -- four real cards
    have hvx := (hrval x (by simp)).1
    have hvy := (hrval y (by simp)).1
    have hvz := (hrval z (by simp)).1
    have hvw := (hrval w (by simp)).1
    have b1x := blankCard_rank_ne x hvx 1
    have b1y := blankCard_rank_ne y hvy 1
    have b1z := blankCard_rank_ne z hvz 1
    have b1w := blankCard_rank_ne w hvw 1
    have hp1 := List.pairwise_cons.mp hpw
    have hp2 := List.pairwise_cons.mp hp1.2
    have hp3 := List.pairwise_cons.mp hp2.2
    by_cases hxy : y.rank = x.rank
    · by_cases hzx : z.rank = x.rank
      · by_cases hwx : w.rank = x.rank
        · -- four of one rank
          refine handForFiveCards_isSome_of_exists cards opts
            ⟨fourOfAKind, by simp [rankings], ?_⟩
          rw [fourOfAKind_vFunc, hsmall]
          show hasPairs [x, y, z, w, blankCard 1] [4, 4, 4, 4, 1] = true
          unfold hasPairs
          rw [List.all_eq_true]
          intro i hi
          rw [List.mem_range] at hi
          interval_cases i <;>
            simp +decide [cardsForRank, hxy, hzx, hwx, b1x, Ne.symm b1x]
        · -- three of one rank and a single
          have hxw : ¬(x.rank = w.rank) := fun h => hwx h.symm
          refine handForFiveCards_isSome_of_exists cards opts
            ⟨threeOfAKind, by simp [rankings], ?_⟩
          rw [threeOfAKind_vFunc, hsmall]
          show hasPairs [x, y, z, w, blankCard 1] [3, 3, 3, 1, 1] = true
          unfold hasPairs
          rw [List.all_eq_true]
          intro i hi
          rw [List.mem_range] at hi
          interval_cases i <;>
            simp +decide [cardsForRank, hxy, hzx, hwx, hxw, b1x, b1w,
              Ne.symm b1x, Ne.symm b1w]
      · by_cases hwx : w.rank = x.rank
        · -- a single inside the top group: impossible
          exfalso
          have hxz : ¬(x.rank = z.rank) := fun h => hzx h.symm
          have hyz : ¬(y.rank = z.rank) := fun h => hzx (h.symm.trans hxy)
          have hwz : ¬(w.rank = z.rank) := fun h => hzx (h.symm.trans hwx)
          have hzw : ¬(z.rank = w.rank) := fun h => hwz h.symm
          have hcz : (cardsForRank cards z.rank).length = 1 := by
            rw [← cardsForRank_perm_length hperm z.rank]
            simp +decide [cardsForRank, hxz, hyz, hwz]
          have hcw : (cardsForRank cards w.rank).length = 3 := by
            rw [← cardsForRank_perm_length hperm w.rank]
            simp +decide [cardsForRank, hwx.symm, hxy.trans hwx.symm, hzw]
          have hR := canonKeyGE_count_le (hp3.1 w (by simp))
          rw [hcz, hcw] at hR
          omega
        · by_cases hwz : w.rank = z.rank
          · -- two pairs
            have hxz : ¬(x.rank = z.rank) := fun h => hzx h.symm
            refine handForFiveCards_isSome_of_exists cards opts
              ⟨twoPair, by simp [rankings], ?_⟩
            rw [twoPair_vFunc, hsmall]
            show hasPairs [x, y, z, w, blankCard 1] [2, 2, 2, 2, 1] = true
            unfold hasPairs
            rw [List.all_eq_true]
            intro i hi
            rw [List.mem_range] at hi
            interval_cases i <;>
              simp +decide [cardsForRank, hxy, hwz, hzx, hxz, b1x, b1z,
                Ne.symm b1x, Ne.symm b1z]
          · -- a pair and two singles
            have hxz : ¬(x.rank = z.rank) := fun h => hzx h.symm
            have hxw : ¬(x.rank = w.rank) := fun h => hwx h.symm
            have hzw : ¬(z.rank = w.rank) := fun h => hwz h.symm
            refine handForFiveCards_isSome_of_exists cards opts
              ⟨pair, by simp [rankings], ?_⟩
            rw [pair_vFunc, hsmall]
            show hasPairs [x, y, z, w, blankCard 1] [2, 2, 1, 1, 1] = true
            unfold hasPairs
            rw [List.all_eq_true]
            intro i hi
            rw [List.mem_range] at hi
            interval_cases i <;>
              simp +decide [cardsForRank, hxy, hzx, hxz, hwx, hxw, hwz, hzw,
                b1x, b1z, b1w, Ne.symm b1x, Ne.symm b1z, Ne.symm b1w]
    · have hyx : ¬(x.rank = y.rank) := fun h => hxy h.symm
      by_cases hzx : z.rank = x.rank
      · by_cases hwx : w.rank = x.rank
        · -- a single inside the top group: impossible
          exfalso
          have hzy : ¬(z.rank = y.rank) := fun h => hxy (h.symm.trans hzx)
          have hwy : ¬(w.rank = y.rank) := fun h => hxy (h.symm.trans hwx)
          have hyz : ¬(y.rank = z.rank) := fun h => hzy h.symm
          have hcy : (cardsForRank cards y.rank).length = 1 := by
            rw [← cardsForRank_perm_length hperm y.rank]
            simp +decide [cardsForRank, hyx, hzy, hwy]
          have hcz : (cardsForRank cards z.rank).length = 3 := by
            rw [← cardsForRank_perm_length hperm z.rank]
            simp +decide [cardsForRank, hzx.symm, hyz, hwx.trans hzx.symm]
          have hR := canonKeyGE_count_le (hp2.1 z (by simp))
          rw [hcy, hcz] at hR
          omega
        · by_cases hwy : w.rank = y.rank
          · -- interleaved pairs: both rank counts are two, so two pair fires
            refine handForFiveCards_isSome_of_exists cards opts
              ⟨twoPair, by simp [rankings], ?_⟩
            rw [twoPair_vFunc, hsmall]
            show hasPairs [x, y, z, w, blankCard 1] [2, 2, 2, 2, 1] = true
            unfold hasPairs
            rw [List.all_eq_true]
            intro i hi
            rw [List.mem_range] at hi
            interval_cases i <;>
              simp +decide [cardsForRank, hzx, hwy, hxy, hyx, b1x, b1y,
                Ne.symm b1x, Ne.symm b1y]
          · -- a single under the first pair: impossible
            exfalso
            have hzy : ¬(z.rank = y.rank) := fun h => hxy (h.symm.trans hzx)
            have hyz : ¬(y.rank = z.rank) := fun h => hzy h.symm
            have hwz : ¬(w.rank = z.rank) := fun h => hwx (h.trans hzx)
            have hcy : (cardsForRank cards y.rank).length = 1 := by
              rw [← cardsForRank_perm_length hperm y.rank]
              simp +decide [cardsForRank, hyx, hzy, hwy]
            have hcz : (cardsForRank cards z.rank).length = 2 := by
              rw [← cardsForRank_perm_length hperm z.rank]
              simp +decide [cardsForRank, hzx.symm, hyz, hwz]
            have hR := canonKeyGE_count_le (hp2.1 z (by simp))
            rw [hcy, hcz] at hR
            omega
      · have hxz : ¬(x.rank = z.rank) := fun h => hzx h.symm
        by_cases hwx : w.rank = x.rank
        · by_cases hzy : z.rank = y.rank
          · -- interleaved pairs again: two pair fires
            refine handForFiveCards_isSome_of_exists cards opts
              ⟨twoPair, by simp [rankings], ?_⟩
            rw [twoPair_vFunc, hsmall]
            show hasPairs [x, y, z, w, blankCard 1] [2, 2, 2, 2, 1] = true
            unfold hasPairs
            rw [List.all_eq_true]
            intro i hi
            rw [List.mem_range] at hi
            interval_cases i <;>
              simp +decide [cardsForRank, hwx, hzy, hxy, hyx, b1x, b1y,
                Ne.symm b1x, Ne.symm b1y]
          · -- a single between pair halves: impossible
            exfalso
            have hyz : ¬(y.rank = z.rank) := fun h => hzy h.symm
            have hwz : ¬(w.rank = z.rank) := fun h => hzx (h.symm.trans hwx)
            have hzw : ¬(z.rank = w.rank) := fun h => hwz h.symm
            have hyw : ¬(y.rank = w.rank) := fun h => hxy (h.trans hwx)
            have hcz : (cardsForRank cards z.rank).length = 1 := by
              rw [← cardsForRank_perm_length hperm z.rank]
              simp +decide [cardsForRank, hxz, hyz, hwz]
            have hcw : (cardsForRank cards w.rank).length = 2 := by
              rw [← cardsForRank_perm_length hperm w.rank]
              simp +decide [cardsForRank, hwx.symm, hyw, hzw]
            have hR := canonKeyGE_count_le (hp3.1 w (by simp))
            rw [hcz, hcw] at hR
            omega
        · have hxw : ¬(x.rank = w.rank) := fun h => hwx h.symm
          by_cases hzy : z.rank = y.rank
          · by_cases hwy : w.rank = y.rank
            · -- a triple under a single: impossible
              exfalso
              have hcx : (cardsForRank cards x.rank).length = 1 := by
                rw [← cardsForRank_perm_length hperm x.rank]
                simp +decide [cardsForRank, hxy, hzx, hwx]
              have hcy : (cardsForRank cards y.rank).length = 3 := by
                rw [← cardsForRank_perm_length hperm y.rank]
                simp +decide [cardsForRank, hyx, hzy, hwy]
              have hR := canonKeyGE_count_le (hp1.1 y (by simp))
              rw [hcx, hcy] at hR
              omega
            · -- a pair under a single: impossible
              exfalso
              have hcx : (cardsForRank cards x.rank).length = 1 := by
                rw [← cardsForRank_perm_length hperm x.rank]
                simp +decide [cardsForRank, hxy, hzx, hwx]
              have hcy : (cardsForRank cards y.rank).length = 2 := by
                rw [← cardsForRank_perm_length hperm y.rank]
                simp +decide [cardsForRank, hyx, hzy, hwy]
              have hR := canonKeyGE_count_le (hp1.1 y (by simp))
              rw [hcx, hcy] at hR
              omega
          · have hyz : ¬(y.rank = z.rank) := fun h => hzy h.symm
            by_cases hwy : w.rank = y.rank
            · -- a pair under a single: impossible
              exfalso
              have hcx : (cardsForRank cards x.rank).length = 1 := by
                rw [← cardsForRank_perm_length hperm x.rank]
                simp +decide [cardsForRank, hxy, hzx, hwx]
              have hcy : (cardsForRank cards y.rank).length = 2 := by
                rw [← cardsForRank_perm_length hperm y.rank]
                simp +decide [cardsForRank, hyx, hzy, hwy]
              have hR := canonKeyGE_count_le (hp1.1 y (by simp))
              rw [hcx, hcy] at hR
              omega
            · by_cases hwz : w.rank = z.rank
              · -- a pair under two singles: impossible
                exfalso
                have hcy : (cardsForRank cards y.rank).length = 1 := by
                  rw [← cardsForRank_perm_length hperm y.rank]
                  simp +decide [cardsForRank, hyx, hzy, hwy]
                have hcz : (cardsForRank cards z.rank).length = 2 := by
                  rw [← cardsForRank_perm_length hperm z.rank]
                  simp +decide [cardsForRank, hxz, hyz, hwz]
                have hR := canonKeyGE_count_le (hp2.1 z (by simp))
                rw [hcy, hcz] at hR
                omega
              · -- four distinct ranks
                have hyw : ¬(y.rank = w.rank) := fun h => hwy h.symm
                have hzw : ¬(z.rank = w.rank) := fun h => hwz h.symm
                refine handForFiveCards_isSome_of_exists cards opts
                  ⟨highCard, by simp [rankings], ?_⟩
                refine highCard_vFunc_true _ opts ?_ hflush hstraight
                rw [hsmall]
                show hasPairs [x, y, z, w, blankCard 1] [1, 1, 1, 1, 1] = true
                unfold hasPairs
                rw [List.all_eq_true]
                intro i hi
                rw [List.mem_range] at hi
                interval_cases i <;>
                  simp +decide [cardsForRank, hxy, hyx, hzx, hxz, hwx, hxw, hzy, hyz,
                    hwy, hyw, hwz, hzw, b1x, b1y, b1z, b1w,
                    Ne.symm b1x, Ne.symm b1y, Ne.symm b1z, Ne.symm b1w]
  · simp at hrlen
    omega

/-- C5 (amended): every 2-4 card valid input is padded with blank sentinels to
exactly five cards and yields a hand; when the input cards carry pairwise
distinct ranks the resulting hand's category is `HighCard`. -/
theorem C5_padded_highcard (cards : List Card)
    (h2 : 2 ≤ cards.length) (h4 : cards.length ≤ 4)
    (hval : ∀ c ∈ cards, validCard c) :
    ∃ h : Hand, NewHand cards = some h ∧ h.cards.length = 5 ∧
      (h.cards.filter (fun c => isBlankRank c.rank)).length = 5 - cards.length ∧
      (cards.Pairwise (fun a b => a.rank ≠ b.rank) → h.ranking = Ranking.HighCard) := by
  have hle : ∀ c ∈ cards, (cardsForRank cards c.rank).length ≤ 4 := fun c _ =>
    le_trans (List.length_filter_le _ _) h4
  have hrlen : (realPart cards ({} : Options)).length = cards.length :=
    (realPart_perm cards {} hval hle).length_eq
  have hform5 : (formCards cards ({} : Options)).length = 5 :=
    formCards_length cards {} hval hle (by omega)
  obtain ⟨hd, hhd⟩ := handForFiveCards_small_isSome cards {} hval (by omega) h4
  have hcards := handForFiveCards_some_cards hhd
  have hcc : cardCombos cards = [cards] := by
    rw [cardCombos_eq_choose, if_pos (by omega)]
    exact choose_self cards
  refine ⟨hd, ?_, ?_, ?_, ?_⟩
  · unfold NewHand NewHandWithOptions
    rw [hcc]
    simp [handsForCombos, hhd, sortByLe, insertLe]
  · rw [hcards, hform5]
  · rw [hcards]
    show ((formCards cards ({} : Options)).filter (fun c => isBlankRank c.rank)).length =
      5 - cards.length
    rw [formCards_eq_realPart, ((formLowStraight_perm _).filter _).length_eq,
      List.filter_append, List.length_append]
    have hp1 : (realPart cards ({} : Options)).filter (fun c => isBlankRank c.rank) = [] := by
      rw [List.filter_eq_nil_iff]
      intro a ha
      simp [realPart_not_blank cards {} hval a ha]
    have hp2 : (blankPad (5 - (realPart cards ({} : Options)).length)).filter
        (fun c => isBlankRank c.rank) =
        blankPad (5 - (realPart cards ({} : Options)).length) :=
      List.filter_eq_self.mpr (fun a ha => by simp [blankPad_all_blank ha])
    rw [hp1, hp2, blankPad_length, hrlen]
    simp
  · intro hdr
    have hblank : hasBlankCards (formCards cards {}) = true :=
      hasBlankCards_formCards cards {} (by omega)
    have hones : ∀ c ∈ formCards cards ({} : Options),
        (cardsForRank (formCards cards {}) c.rank).length = 1 := by
      intro c hc
      rcases mem_formCards hc with hreal | hpad
      · have hcc2 : c ∈ cards := realPart_subset cards {} c hreal
        rw [cardsForRank_formCards,
          cardsForRank_perm_length (realPart_perm cards {} hval hle) c.rank,
          count_rank_distinct cards hdr c hcc2,
          cardsForRank_pad_valid _ _ (validRank_not_blank (hval c hcc2).1)]
        rfl
      · have hbl : isBlankRank c.rank = true := blankPad_all_blank hpad
        rw [cardsForRank_formCards,
          cardsForRank_no_blank _ (realPart_not_blank cards {} hval) _ hbl,
          blankPad_count _ (by omega) c hpad]
        rfl
    have hpairs : hasPairs (formCards cards {}) [1, 1, 1, 1, 1] = true :=
      hasPairs_ones _ hform5 hones
    have hflush := hasFlush_of_blank _ hblank
    have hstraight := hasStraight_of_blank ({} : Options).AceIsLow _ hblank
    have hv : highCard.vFunc (formCards cards {}) {} = true := by
      simp only [highCard]
      simp [hpairs, hflush, hstraight]
    have heval := handForFiveCards_highCard cards {} hv
    have hinj := hhd.symm.trans heval
    rw [Option.some.injEq] at hinj
    rw [hinj]

theorem C5_padded_highcard_witness :
    ∃ h : Hand, NewHand [⟨King, Spades⟩, ⟨Queen, Hearts⟩] = some h ∧
      h.cards.length = 5 ∧
      (h.cards.filter (fun c => isBlankRank c.rank)).length =
        5 - ([⟨King, Spades⟩, ⟨Queen, Hearts⟩] : List Card).length ∧
      (([⟨King, Spades⟩, ⟨Queen, Hearts⟩] : List Card).Pairwise
          (fun a b => a.rank ≠ b.rank) → h.ranking = Ranking.HighCard) :=
  C5_padded_highcard [⟨King, Spades⟩, ⟨Queen, Hearts⟩] (by decide) (by decide) (by decide)

end Joker
